import Mathlib

/-!
# ofxDspChain: declicked parameter, mixer master volume, reference effects, test tone

Shallow embedding of `src/ofSoundUnit.h` and `src/ofSoundEffect.cpp`.

Two embeddings of the numeric code are given.

Exact arithmetic (top-level definitions)
* a stored `float` is a rational number: arithmetic is exact, there is no rounding and no
  overflow.  The non-finite floats (NaN, +Infinity, -Infinity) occur only as *arguments* of the
  guarded setters, type `CFloat`;
* `int` counts and indices (`numFrames`, channel counts, `rampPos`, loop counters) are natural
  numbers and `int` arithmetic does not overflow;
* a `float*` / `float[64]` is a function from index to sample; for `ramp` the indices `0..63`
  are the array, larger indices lie outside it;
* the frequency computed by the test tone involves `powf`, so it is generic in the number
  field and stated over the reals.

Machine arithmetic (namespace `Machine`)
* a `float` is an IEEE binary32 value and every operation rounds to nearest, ties to even,
  with overflow to an infinity (`F32`);
* an `int` expression wraps modulo 2^32 (`wrapInt32`), a `size_t` expression modulo 2^64;
* a `float*` is an integer-indexed memory.

Claims that do not depend on the arithmetic, or that ask for exact arithmetic, are settled
on the first embedding; claims that fail under rounding or overflow are refuted on the
second.
-/

namespace OfxDspChain

/-! ## C float arguments -/

/-- A C `float` passed to a setter: a finite value or one of the three non-finite ones. -/
inductive CFloat where
  | fin (q : ℚ)
  | nan
  | posInf
  | negInf
deriving DecidableEq

/-- C `isnan`. -/
def isnan : CFloat → Bool
  | .nan => true
  | _ => false

/-- C `finite` (BSD): true exactly for values that are neither infinite nor NaN. -/
def finite : CFloat → Bool
  | .fin _ => true
  | _ => false

/-- C `isfinite`. -/
def isfinite : CFloat → Bool
  | .fin _ => true
  | _ => false

/-- The number stored when a float is assigned to a field; only used under a finiteness guard. -/
def CFloat.toRat : CFloat → ℚ
  | .fin q => q
  | _ => 0

/-- C float negation. -/
def CFloat.neg : CFloat → CFloat
  | .fin q => .fin (-q)
  | .nan => .nan
  | .posInf => .negInf
  | .negInf => .posInf

/-- C float addition: exact on finite values, IEEE rules for NaN and the infinities. -/
def CFloat.add : CFloat → CFloat → CFloat
  | .fin a, .fin b => .fin (a + b)
  | .nan, _ => .nan
  | _, .nan => .nan
  | .posInf, .negInf => .nan
  | .negInf, .posInf => .nan
  | .posInf, _ => .posInf
  | _, .posInf => .posInf
  | .negInf, _ => .negInf
  | _, .negInf => .negInf

/-- C float subtraction. -/
def CFloat.sub (a b : CFloat) : CFloat := a.add b.neg

/-- Fields of `class ofSoundDeclickedFloat`. -/
structure ofSoundDeclickedFloat where
  current : ℚ
  target : ℚ
  rampNeedsRebuild : Bool
  rampPos : Nat
  ramp : Nat → ℚ

namespace ofSoundDeclickedFloat

/-- Source: `float getDeclickedValue() { return current; }` -/
def getDeclickedValue (s : ofSoundDeclickedFloat) : ℚ := s.current

/-- Source: `float getRawValue() { return target; }` -/
def getRawValue (s : ofSoundDeclickedFloat) : ℚ := s.target

/-- Source: `void setValue( float newValue ) { if ( !isnan(newValue)&&finite(newValue) )
    { target = newValue; rampNeedsRebuild = true; } }` -/
def setValue (s : ofSoundDeclickedFloat) (newValue : CFloat) : ofSoundDeclickedFloat :=
  if !isnan newValue && finite newValue then
    { s with target := newValue.toRat, rampNeedsRebuild := true }
  else s

/-- Index written by iteration `i` of the loop in `rebuildRamp`: `(i+rampPos)%64`. -/
def rampIndex (rampPos i : Nat) : Nat := (i + rampPos) % 64

/-- One iteration of the loop in `rebuildRamp`: `ramp[(i+rampPos)%64] = v; v += step;`.
    The accumulator is the pair (ramp, v). -/
def rebuildRampBody (rampPos : Nat) (step : ℚ) (acc : (Nat → ℚ) × ℚ) (i : Nat) :
    (Nat → ℚ) × ℚ :=
  (Function.update acc.1 (rampIndex rampPos i) acc.2, acc.2 + step)

/-- Source: `void rebuildRamp() { float v = current; float step = (target-current)/63;
    for ( int i=0; i<64; i++ ) { ramp[(i+rampPos)%64] = v; v += step; } }`, in exact
    arithmetic: the difference, the quotient and the running sum are not rounded
    (`Machine.ofSoundDeclickedFloat.rebuildRamp` rounds them to binary32). -/
def rebuildRamp (s : ofSoundDeclickedFloat) : ofSoundDeclickedFloat :=
  let v := s.current
  let step := (s.target - s.current) / 63
  { s with ramp := ((List.range 64).foldl (rebuildRampBody s.rampPos step) (s.ramp, v)).1 }

/-- Source: `void rebuildRampIfNecessary() { if ( rampNeedsRebuild ) rebuildRamp();
    rampNeedsRebuild = false; }` -/
def rebuildRampIfNecessary (s : ofSoundDeclickedFloat) : ofSoundDeclickedFloat :=
  let s1 := if s.rampNeedsRebuild then rebuildRamp s else s
  { s1 with rampNeedsRebuild := false }

/-- Source: `void frameTick() { current = ramp[rampPos]; ramp[rampPos] = target;
    rampPos = (rampPos+1)%64; }` -/
def frameTick (s : ofSoundDeclickedFloat) : ofSoundDeclickedFloat :=
  { s with
    current := s.ramp s.rampPos
    ramp := Function.update s.ramp s.rampPos s.target
    rampPos := (s.rampPos + 1) % 64 }

/-- Source: `ofSoundDeclickedFloat( float startValue=0.0f ) { rampPos = 0; current = startValue;
    setValue( startValue ); }` for a finite start value.  The members the constructor does not
    assign (`ramp`, and `target`/`rampNeedsRebuild` before `setValue`) keep whatever the
    storage `mem` held. -/
def construct (mem : ofSoundDeclickedFloat) (startValue : ℚ) : ofSoundDeclickedFloat :=
  setValue { mem with rampPos := 0, current := startValue } (CFloat.fin startValue)

/-- Jump bound of a ramp built from state `s`: `|target - current| / 63`. -/
def rampBound (s : ofSoundDeclickedFloat) : ℚ := |s.target - s.current| / 63

/-- Source: `ofSoundDeclickedFloat& operator=( float new_value ) { setValue( new_value );
    return *this; }` -/
def operatorAssign (s : ofSoundDeclickedFloat) (new_value : CFloat) : ofSoundDeclickedFloat :=
  setValue s new_value

/-- Source: `ofSoundDeclickedFloat& operator+=( float adjustment )
    { setValue( target+adjustment ); return *this; }`, the sum exact on finite values
    (`Machine.ofSoundDeclickedFloat.operatorPlusAssign` rounds it to binary32). -/
def operatorPlusAssign (s : ofSoundDeclickedFloat) (adjustment : CFloat) :
    ofSoundDeclickedFloat :=
  setValue s (CFloat.add (CFloat.fin s.target) adjustment)

/-- Source: `ofSoundDeclickedFloat& operator-=( float adjustment )
    { setValue( target-adjustment ); return *this; }`, the difference exact on finite values
    (`Machine.ofSoundDeclickedFloat.operatorMinusAssign` rounds it to binary32). -/
def operatorMinusAssign (s : ofSoundDeclickedFloat) (adjustment : CFloat) :
    ofSoundDeclickedFloat :=
  setValue s (CFloat.sub (CFloat.fin s.target) adjustment)

/-- A value settled at `g`: `current = target = g` and every slot of the ramp array is `g`. -/
def Settled (g : ℚ) (s : ofSoundDeclickedFloat) : Prop :=
  s.current = g ∧ s.target = g ∧ ∀ m, m < 64 → s.ramp m = g

end ofSoundDeclickedFloat

open ofSoundDeclickedFloat

/-! ## Protocol traces of a declicked value -/

/-- One block of the documented protocol: the `setValue` calls made before the block, then one
    `rebuildRampIfNecessary()` and `ticks` calls of `frameTick()`. -/
structure Block where
  sets : List CFloat
  ticks : Nat

/-- The values `getDeclickedValue()` returns after each of `n` consecutive `frameTick()` calls,
    each paired with the jump bound `bound` in force. -/
def tickObs (bound : ℚ) : Nat → ofSoundDeclickedFloat → List (ℚ × ℚ)
  | 0, _ => []
  | n + 1, s => (getDeclickedValue (frameTick s), bound) :: tickObs bound n (frameTick s)

/-- State after the `setValue` calls that precede a block. -/
def applySets (s : ofSoundDeclickedFloat) (vs : List CFloat) : ofSoundDeclickedFloat :=
  vs.foldl setValue s

/-- Jump bound in force during a block: `rampBound` of the state the ramp is rebuilt from when
    the block's `rebuildRampIfNecessary()` rebuilds, the previous bound otherwise. -/
def blockBound (st : ofSoundDeclickedFloat × ℚ) (blk : Block) : ℚ :=
  if (applySets st.1 blk.sets).rampNeedsRebuild then rampBound (applySets st.1 blk.sets)
  else st.2

/-- Run one block: state and bound afterwards. -/
def runBlock (st : ofSoundDeclickedFloat × ℚ) (blk : Block) : ofSoundDeclickedFloat × ℚ :=
  (frameTick^[blk.ticks] (rebuildRampIfNecessary (applySets st.1 blk.sets)), blockBound st blk)

/-- Values observed after every `frameTick()` of a trace, with the bound in force. -/
def traceObs : ofSoundDeclickedFloat × ℚ → List Block → List (ℚ × ℚ)
  | _, [] => []
  | st, blk :: rest =>
    tickObs (blockBound st blk) blk.ticks (rebuildRampIfNecessary (applySets st.1 blk.sets))
      ++ traceObs (runBlock st blk) rest

/-- Every observation differs from the value observed just before it (`prev` for the first
    one) by at most its own bound. -/
def Smooth : ℚ → List (ℚ × ℚ) → Prop
  | _, [] => True
  | prev, o :: rest => |o.1 - prev| ≤ o.2 ∧ Smooth o.1 rest

/-- Last observed value of a list of observations, `prev` when there is none. -/
def lastVal : ℚ → List (ℚ × ℚ) → ℚ
  | prev, [] => prev
  | _, o :: rest => lastVal o.1 rest

/-- Ramp invariant for bound `B`: read from the cursor onward, the 64 slots start within `B`
    of `current`, move by at most `B` from slot to slot, and end within `B` of `target`. -/
def RampInv (s : ofSoundDeclickedFloat) (B : ℚ) : Prop :=
  s.rampPos < 64 ∧
  |s.ramp (rampIndex s.rampPos 0) - s.current| ≤ B ∧
  (∀ j, j < 63 →
    |s.ramp (rampIndex s.rampPos (j + 1)) - s.ramp (rampIndex s.rampPos j)| ≤ B) ∧
  |s.target - s.ramp (rampIndex s.rampPos 63)| ≤ B

/-- States at a block boundary: cursor in range, and either a rebuild is pending or the ramp
    invariant holds for the bound in force. -/
def Good (st : ofSoundDeclickedFloat × ℚ) : Prop :=
  st.1.rampPos < 64 ∧ (st.1.rampNeedsRebuild = true ∨ RampInv st.1 st.2)

/-! ## Buffers, sinks, mixer -/

/-- Fields of `class ofAudioBuffer`. -/
structure ofAudioBuffer where
  buffer : Nat → ℚ
  numFrames : Nat
  numChannels : Nat

/-- Fields of `class ofSoundSink`; `input` is the `ofSoundSource*` (`none` for `NULL`),
    `mutexLocked` the state of `mutex`. -/
structure ofSoundSink where
  mutexLocked : Bool
  input : Option Nat
  inputBuffer : ofAudioBuffer
  sampleRate : Int

/-- Fields of `struct MixerInput`. -/
structure MixerInput where
  input : Option Nat
  inputBuffer : ofAudioBuffer
  volume : ℚ
  pan : ℚ

/-- Fields of `class ofSoundMixer`. -/
structure ofSoundMixer extends ofSoundSink where
  inputs : List MixerInput
  masterVolume : ℚ
  working : Option (Nat → ℚ)

/-- Source: `void setMasterVolume( float vol ) { if ( !isnan(vol) && isfinite(vol) )
    { masterVolume = vol; } }` -/
def ofSoundMixer.setMasterVolume (m : ofSoundMixer) (vol : CFloat) : ofSoundMixer :=
  if !isnan vol && isfinite vol then { m with masterVolume := vol.toRat } else m

/-- Source: `void lock() { mutex.lock(); }`: returns with the mutex held. -/
def ofSoundSink.lock (s : ofSoundSink) : ofSoundSink := { s with mutexLocked := true }

/-- Source: `void unlock() { mutex.unlock(); }` -/
def ofSoundSink.unlock (s : ofSoundSink) : ofSoundSink := { s with mutexLocked := false }

/-- Modelled from the spec: `ofAudioBuffer::allocate` (declared in `ofSoundUnit.h`, defined
    outside the sources): the buffer takes the requested shape; contents are unspecified,
    here whatever the storage held. -/
def ofAudioBuffer.allocate (b : ofAudioBuffer) (nFrames nChannels : Nat) : ofAudioBuffer :=
  { b with numFrames := nFrames, numChannels := nChannels }

/-- Modelled from the spec: `ofAudioBuffer::clear` (declared in `ofSoundUnit.h`, defined
    outside the sources): zero-fill the entire buffer, same shape. -/
def ofAudioBuffer.clear (b : ofAudioBuffer) : ofAudioBuffer :=
  { b with buffer := fun k => if k < b.numFrames * b.numChannels then 0 else b.buffer k }

/-- Modelled from the spec: `ofSoundSink::fillInputBufferFromUpstream` (declared in
    `ofSoundUnit.h`, defined outside the sources): resizes `inputBuffer` to the requested
    shape, zeros it if no input is connected, else calls the connected source's
    `audioRequested` directly into it.  `render src buf numFrames numChannels` is the buffer
    after `src->audioRequested( buf, numFrames, numChannels )`. -/
def ofSoundSink.fillInputBufferFromUpstream
    (render : Nat → (Nat → ℚ) → Nat → Nat → (Nat → ℚ))
    (s : ofSoundSink) (numFrames numChannels : Nat) : ofSoundSink :=
  let buf := s.inputBuffer.allocate numFrames numChannels
  match s.input with
  | none => { s with inputBuffer := buf.clear }
  | some src =>
    { s with inputBuffer := { buf with buffer := render src buf.buffer numFrames numChannels } }

/-! ## ofSoundEffect and the reference effects -/

/-- Fields of `class ofSoundEffect` as used in `ofSoundEffect.cpp`: the inherited
    `ofSoundSink` members and `bIsActive`. -/
structure ofSoundEffect extends ofSoundSink where
  bIsActive : Bool

/-- Source: `void ofSoundEffect::clearInputs()`: `lock(); ofSoundSink::input = NULL; unlock();`
    followed by an `if ( input != NULL ) ... else ...` whose branches are both empty. -/
def ofSoundEffect.clearInputs (e : ofSoundEffect) : ofSoundEffect :=
  let e1 : ofSoundEffect := { e with toofSoundSink := e.toofSoundSink.lock }
  let e2 : ofSoundEffect := { e1 with input := none }
  let e3 : ofSoundEffect := { e2 with toofSoundSink := e2.toofSoundSink.unlock }
  if e3.input.isSome then e3 else e3

/-- Source: `void ofSoundEffect::setActive(bool _bIsActive)`. -/
def ofSoundEffect.setActive (e : ofSoundEffect) (_bIsActive : Bool) : ofSoundEffect :=
  { e with bIsActive := _bIsActive }

/-- Source: `bool ofSoundEffect::isActive()`. -/
def ofSoundEffect.isActive (e : ofSoundEffect) : Bool := e.bIsActive

/-- Source: `void ofSoundEffect::audioRequested( float* buffer, int numFrames, int numChannels )`:
    `fillInputBufferFromUpstream( numFrames, numChannels );` then
    `process( inputBuffer.buffer, buffer, numFrames, inputBuffer.numChannels, numChannels );`.
    The inherited `fillInputBufferFromUpstream`, whose body is outside the sources, and the
    virtual `process` are parameters; the result of `process` (output buffer, and the effect's
    own state when it has one) is returned with the effect. -/
def ofSoundEffect.audioRequested {α : Type}
    (fillInputBufferFromUpstream : ofSoundSink → Nat → Nat → ofSoundSink)
    (process : (Nat → ℚ) → (Nat → ℚ) → Nat → Nat → Nat → α)
    (e : ofSoundEffect) (buffer : Nat → ℚ) (numFrames numChannels : Nat) : ofSoundEffect × α :=
  let e1 : ofSoundEffect :=
    { e with toofSoundSink := fillInputBufferFromUpstream e.toofSoundSink numFrames numChannels }
  (e1, process e1.inputBuffer.buffer buffer numFrames e1.inputBuffer.numChannels numChannels)

/-- Bytes in a C `float`: `sizeof(float)`. -/
def sizeofFloat : Nat := 4

/-- C `memcpy( dst, src, n )` on float arrays that do not overlap: float `k` of `dst` is
    overwritten exactly when its bytes lie within the first `n` bytes. -/
def memcpy (dst src : Nat → ℚ) (n : Nat) : Nat → ℚ :=
  fun k => if sizeofFloat * (k + 1) ≤ n then src k else dst k

/-- Source: `void ofSoundEffectPassthrough::process(...)`:
    `memcpy( output, input, numFrames*numOutChannels*sizeof(float) );`, the product of the two
    counts taken without overflow (`Machine.ofSoundEffectPassthrough.process` multiplies them
    as `int`s). -/
def ofSoundEffectPassthrough.process (input output : Nat → ℚ)
    (numFrames _numInChannels numOutChannels : Nat) : Nat → ℚ :=
  memcpy output input (numFrames * numOutChannels * sizeofFloat)

/-- Inner loop of `ofSoundEffectVolume::process` for frame `i`:
    `for ( int j=0; j<numOutChannels; j++ )
       output[i*numOutChannels+j] = input[i*numInChannels+j] * volume.getDeclickedValue();` -/
def ofSoundEffectVolume.processChannels (volume : ofSoundDeclickedFloat) (input : Nat → ℚ)
    (numInChannels numOutChannels i : Nat) (output : Nat → ℚ) : Nat → ℚ :=
  (List.range numOutChannels).foldl
    (fun out j =>
      Function.update out (i * numOutChannels + j)
        (input (i * numInChannels + j) * volume.getDeclickedValue))
    output

/-- Body of the frame loop of `ofSoundEffectVolume::process`: the channel loop, then
    `volume.frameTick();`.  The accumulator is the pair (volume, output). -/
def ofSoundEffectVolume.processFrame (input : Nat → ℚ) (numInChannels numOutChannels : Nat)
    (acc : ofSoundDeclickedFloat × (Nat → ℚ)) (i : Nat) : ofSoundDeclickedFloat × (Nat → ℚ) :=
  (frameTick acc.1,
   ofSoundEffectVolume.processChannels acc.1 input numInChannels numOutChannels i acc.2)

/-- Source: `void ofSoundEffectVolume::process(...)`: `volume.rebuildRampIfNecessary();` then
    `for ( int i=0; i<numFrames; i++ )` over the frame body.  Returns the member `volume` and
    the output buffer. -/
def ofSoundEffectVolume.process (volume : ofSoundDeclickedFloat) (input output : Nat → ℚ)
    (numFrames numInChannels numOutChannels : Nat) : ofSoundDeclickedFloat × (Nat → ℚ) :=
  (List.range numFrames).foldl
    (ofSoundEffectVolume.processFrame input numInChannels numOutChannels)
    (rebuildRampIfNecessary volume, output)

/-- Assignments executed by the channel loop of `ofSoundEffectVolume::process` for frame `i`,
    in order, each as (index written in `output`, index read in `input`). -/
def ofSoundEffectVolume.frameAccesses (numInChannels numOutChannels i : Nat) :
    List (Nat × Nat) :=
  (List.range numOutChannels).map
    (fun j => (i * numOutChannels + j, i * numInChannels + j))

/-- Assignments executed by `ofSoundEffectVolume::process`, in order. -/
def ofSoundEffectVolume.accesses (numFrames numInChannels numOutChannels : Nat) :
    List (Nat × Nat) :=
  (List.range numFrames).flatMap
    (ofSoundEffectVolume.frameAccesses numInChannels numOutChannels)

/-- Channel-reconciliation policy in the words of the spec: the input channel that feeds
    output channel `j`: channel `j` itself when `numOutChannels <= numInChannels` (extra input
    channels dropped), channel `j mod numInChannels` otherwise (input channels repeated
    cyclically). -/
def reconciledChannel (numInChannels numOutChannels j : Nat) : Nat :=
  if numOutChannels ≤ numInChannels then j else j % numInChannels

/-! ## ofSoundSourceTestTone -/

/-- Source: `void setFrequencyMidiNote( float midiNote )
    { setFrequency(440.0f*powf(2.0f,(midiNote-60.0f)/12.0f)); }`.
    in exact arithmetic.  `powf` and `setFrequency` (declared in `ofSoundUnit.h`, body
    outside the sources) are parameters; `F` is the number type, left generic because
    `2^(x/12)` is irrational in general; `σ` is the state of the tone generator
    (`Machine.ofSoundSourceTestTone.setFrequencyMidiNote` rounds to binary32). -/
def ofSoundSourceTestTone.setFrequencyMidiNote {F σ : Type} [Field F] (powf : F → F → F)
    (setFrequency : σ → F → σ) (tone : σ) (midiNote : F) : σ :=
  setFrequency tone (440 * powf 2 ((midiNote - 60) / 12))

/-! ## Machine arithmetic: binary32 floats and 32-bit ints

The definitions above take every `float` operation exactly and every `int` product without
overflow.  The namespace `Machine` embeds the same source a second time with the arithmetic
of the machine: a `float` is an IEEE binary32 value (a `CFloat` whose finite values are the
representable rationals), every operation rounds to nearest, ties to even, and overflows to
an infinity; an `int` expression wraps modulo 2^32 into `[-2^31, 2^31)`; a `float*` is an
integer-indexed memory, so that a wrapped, negative index is visible.  The two zeros of
binary32 are identified. -/

/-- The rational `2^p`. -/
def pow2 (p : Int) : ℚ :=
  if 0 ≤ p then ((2 ^ p.toNat : Nat) : ℚ) else 1 / ((2 ^ (-p).toNat : Nat) : ℚ)

/-- Binary logarithm by halving, at most `fuel` times. -/
def log2Fuel : Nat → Nat → Nat
  | 0, _ => 0
  | fuel + 1, n => if 2 ≤ n then log2Fuel fuel (n / 2) + 1 else 0

/-- Floor of the binary logarithm of `n` (0 for `n = 0`). -/
def natLog2 (n : Nat) : Nat := log2Fuel n n

/-- The exponent `e` with `2^e <= |q| < 2^(e+1)`, for `q` other than 0. -/
def binExponent (q : ℚ) : Int :=
  if |q| < pow2 ((natLog2 q.num.natAbs : Int) - (natLog2 q.den : Int)) then
    (natLog2 q.num.natAbs : Int) - (natLog2 q.den : Int) - 1
  else (natLog2 q.num.natAbs : Int) - (natLog2 q.den : Int)

/-- Nearest integer, ties to the even one. -/
def roundHalfEven (q : ℚ) : Int :=
  if q - (Rat.floor q : ℚ) < 1 / 2 then Rat.floor q
  else if 1 / 2 < q - (Rat.floor q : ℚ) then Rat.floor q + 1
  else if Rat.floor q % 2 = 0 then Rat.floor q else Rat.floor q + 1

namespace F32

/-- Exponent of the unit in the last place of the binary32 values around `q`: 24 significant
    bits for normal numbers, `2^-149` for subnormal ones. -/
def ulpExponent (q : ℚ) : Int := max (binExponent q) (-126) - 23

/-- The exact value `q` rounded to binary32: nearest representable value, ties to even; a
    result of magnitude `2^128` or more is an infinity. -/
def round (q : ℚ) : CFloat :=
  if q = 0 then CFloat.fin 0
  else if pow2 128 ≤ |(roundHalfEven (q / pow2 (ulpExponent q)) : ℚ) * pow2 (ulpExponent q)| then
    (if 0 < q then CFloat.posInf else CFloat.negInf)
  else CFloat.fin ((roundHalfEven (q / pow2 (ulpExponent q)) : ℚ) * pow2 (ulpExponent q))

/-- Sign rule for an infinite product or quotient; a zero factor gives NaN. -/
def infTimes (positive : Bool) (a : ℚ) : CFloat :=
  if a = 0 then CFloat.nan
  else if (0 < a) = positive then CFloat.posInf else CFloat.negInf

/-- C `float` addition. -/
def add : CFloat → CFloat → CFloat
  | .fin a, .fin b => round (a + b)
  | .nan, _ => .nan
  | _, .nan => .nan
  | .posInf, .negInf => .nan
  | .negInf, .posInf => .nan
  | .posInf, _ => .posInf
  | _, .posInf => .posInf
  | .negInf, _ => .negInf
  | _, .negInf => .negInf

/-- C `float` subtraction. -/
def sub (a b : CFloat) : CFloat := add a b.neg

/-- C `float` multiplication. -/
def mul : CFloat → CFloat → CFloat
  | .fin a, .fin b => round (a * b)
  | .nan, _ => .nan
  | _, .nan => .nan
  | .fin a, .posInf => infTimes true a
  | .fin a, .negInf => infTimes false a
  | .posInf, .fin b => infTimes true b
  | .negInf, .fin b => infTimes false b
  | .posInf, .posInf => .posInf
  | .negInf, .negInf => .posInf
  | .posInf, .negInf => .negInf
  | .negInf, .posInf => .negInf

/-- C `float` division; a zero divisor counts as `+0`. -/
def div : CFloat → CFloat → CFloat
  | .fin a, .fin b => if b = 0 then infTimes true a else round (a / b)
  | .nan, _ => .nan
  | _, .nan => .nan
  | .fin _, .posInf => .fin 0
  | .fin _, .negInf => .fin 0
  | .posInf, .fin b => if 0 ≤ b then .posInf else .negInf
  | .negInf, .fin b => if 0 ≤ b then .negInf else .posInf
  | .posInf, .posInf => .nan
  | .posInf, .negInf => .nan
  | .negInf, .posInf => .nan
  | .negInf, .negInf => .nan

end F32

/-- The value of an `int` expression whose exact value is `n`: reduced modulo 2^32 into
    `[-2^31, 2^31)`. -/
def wrapInt32 (n : Int) : Int := (n + 2147483648) % 4294967296 - 2147483648

/-- C `int` multiplication. -/
def intMul (a b : Int) : Int := wrapInt32 (a * b)

/-- C `int` addition. -/
def intAdd (a b : Int) : Int := wrapInt32 (a + b)

/-- Conversion of an `int` to the 64-bit `size_t`. -/
def toSizeT (n : Int) : Nat := (n % 18446744073709551616).toNat

/-- Multiplication of two `size_t` values. -/
def sizeTMul (a b : Nat) : Nat := (a * b) % 18446744073709551616

namespace Machine

/-- Fields of `class ofSoundDeclickedFloat`, the floats as binary32 values. -/
structure ofSoundDeclickedFloat where
  current : CFloat
  target : CFloat
  rampNeedsRebuild : Bool
  rampPos : Nat
  ramp : Nat → CFloat

namespace ofSoundDeclickedFloat

/-- Source: `float getDeclickedValue() { return current; }` -/
def getDeclickedValue (s : Machine.ofSoundDeclickedFloat) : CFloat := s.current

/-- Source: `float getRawValue() { return target; }` -/
def getRawValue (s : Machine.ofSoundDeclickedFloat) : CFloat := s.target

/-- Source: `void setValue( float newValue ) { if ( !isnan(newValue)&&finite(newValue) )
    { target = newValue; rampNeedsRebuild = true; } }` -/
def setValue (s : Machine.ofSoundDeclickedFloat) (newValue : CFloat) :
    Machine.ofSoundDeclickedFloat :=
  if !isnan newValue && finite newValue then
    { s with target := newValue, rampNeedsRebuild := true }
  else s

/-- One iteration of the loop in `rebuildRamp`: `ramp[(i+rampPos)%64] = v; v += step;`, the
    sum rounded to binary32.  The accumulator is the pair (ramp, v). -/
def rebuildRampBody (rampPos : Nat) (step : CFloat) (acc : (Nat → CFloat) × CFloat) (i : Nat) :
    (Nat → CFloat) × CFloat :=
  (Function.update acc.1 (rampIndex rampPos i) acc.2, F32.add acc.2 step)

/-- Source: `void rebuildRamp() { float v = current; float step = (target-current)/63;
    for ( int i=0; i<64; i++ ) { ramp[(i+rampPos)%64] = v; v += step; } }`, the difference
    and the quotient rounded to binary32. -/
def rebuildRamp (s : Machine.ofSoundDeclickedFloat) : Machine.ofSoundDeclickedFloat :=
  { s with ramp := ((List.range 64).foldl
      (rebuildRampBody s.rampPos (F32.div (F32.sub s.target s.current) (CFloat.fin 63)))
      (s.ramp, s.current)).1 }

/-- Source: `void rebuildRampIfNecessary() { if ( rampNeedsRebuild ) rebuildRamp();
    rampNeedsRebuild = false; }` -/
def rebuildRampIfNecessary (s : Machine.ofSoundDeclickedFloat) :
    Machine.ofSoundDeclickedFloat :=
  { (if s.rampNeedsRebuild then s.rebuildRamp else s) with rampNeedsRebuild := false }

/-- Source: `void frameTick() { current = ramp[rampPos]; ramp[rampPos] = target;
    rampPos = (rampPos+1)%64; }` -/
def frameTick (s : Machine.ofSoundDeclickedFloat) : Machine.ofSoundDeclickedFloat :=
  { s with
    current := s.ramp s.rampPos
    ramp := Function.update s.ramp s.rampPos s.target
    rampPos := (s.rampPos + 1) % 64 }

/-- Source: `ofSoundDeclickedFloat( float startValue=0.0f ) { rampPos = 0; current = startValue;
    setValue( startValue ); }`, for any start value.  The members the constructor does not
    assign keep whatever the storage `mem` held. -/
def construct (mem : Machine.ofSoundDeclickedFloat) (startValue : CFloat) :
    Machine.ofSoundDeclickedFloat :=
  ({ mem with rampPos := 0, current := startValue } : Machine.ofSoundDeclickedFloat).setValue
    startValue

/-- Source: `ofSoundDeclickedFloat& operator=( float new_value ) { setValue( new_value );
    return *this; }` -/
def operatorAssign (s : Machine.ofSoundDeclickedFloat) (new_value : CFloat) :
    Machine.ofSoundDeclickedFloat :=
  s.setValue new_value

/-- Source: `ofSoundDeclickedFloat& operator+=( float adjustment )
    { setValue( target+adjustment ); return *this; }`, the sum rounded to binary32. -/
def operatorPlusAssign (s : Machine.ofSoundDeclickedFloat) (adjustment : CFloat) :
    Machine.ofSoundDeclickedFloat :=
  s.setValue (F32.add s.target adjustment)

/-- Source: `ofSoundDeclickedFloat& operator-=( float adjustment )
    { setValue( target-adjustment ); return *this; }`, the difference rounded to binary32. -/
def operatorMinusAssign (s : Machine.ofSoundDeclickedFloat) (adjustment : CFloat) :
    Machine.ofSoundDeclickedFloat :=
  s.setValue (F32.sub s.target adjustment)

end ofSoundDeclickedFloat

/-- Fields of `class ofAudioBuffer`; `buffer` is the memory at the `float*`. -/
structure ofAudioBuffer where
  buffer : Int → CFloat
  numFrames : Nat
  numChannels : Nat

/-- Fields of `class ofSoundSink`. -/
structure ofSoundSink where
  mutexLocked : Bool
  input : Option Nat
  inputBuffer : Machine.ofAudioBuffer
  sampleRate : Int

/-- Fields of `class ofSoundEffect` as used in `ofSoundEffect.cpp`. -/
structure ofSoundEffect extends Machine.ofSoundSink where
  bIsActive : Bool

/-- Modelled from the spec: `ofSoundSink::fillInputBufferFromUpstream` (declared in
    `ofSoundUnit.h`, defined outside the sources): resizes `inputBuffer` to the requested
    shape, zeros it if no input is connected, else calls the connected source's
    `audioRequested` directly into it (`render`). -/
def ofSoundSink.fillInputBufferFromUpstream
    (render : Nat → (Int → CFloat) → Nat → Nat → (Int → CFloat))
    (s : Machine.ofSoundSink) (numFrames numChannels : Nat) : Machine.ofSoundSink :=
  match s.input with
  | none =>
    { s with inputBuffer :=
        { buffer := fun k =>
            if 0 ≤ k ∧ k < ((numFrames * numChannels : Nat) : Int) then CFloat.fin 0
            else s.inputBuffer.buffer k
          numFrames := numFrames
          numChannels := numChannels } }
  | some src =>
    { s with inputBuffer :=
        { buffer := render src s.inputBuffer.buffer numFrames numChannels
          numFrames := numFrames
          numChannels := numChannels } }

/-- Source: `void ofSoundEffect::audioRequested( float* buffer, int numFrames, int numChannels )`:
    `fillInputBufferFromUpstream( numFrames, numChannels );` then
    `process( inputBuffer.buffer, buffer, numFrames, inputBuffer.numChannels, numChannels );`.
    The inherited `fillInputBufferFromUpstream`, whose body is outside the sources, and the
    virtual `process` are parameters. -/
def ofSoundEffect.audioRequested {α : Type}
    (fillInputBufferFromUpstream : Machine.ofSoundSink → Nat → Nat → Machine.ofSoundSink)
    (process : (Int → CFloat) → (Int → CFloat) → Nat → Nat → Nat → α)
    (e : Machine.ofSoundEffect) (buffer : Int → CFloat) (numFrames numChannels : Nat) :
    Machine.ofSoundEffect × α :=
  (({ e with toofSoundSink :=
        fillInputBufferFromUpstream e.toofSoundSink numFrames numChannels } :
      Machine.ofSoundEffect),
   process (fillInputBufferFromUpstream e.toofSoundSink numFrames numChannels).inputBuffer.buffer
     buffer numFrames
     (fillInputBufferFromUpstream e.toofSoundSink numFrames numChannels).inputBuffer.numChannels
     numChannels)

/-- C `memcpy( dst, src, n )` on float arrays that do not overlap, `n` a `size_t`: float `k`
    of `dst`, `k >= 0`, is overwritten exactly when its bytes lie within the first `n`
    bytes. -/
def memcpy (dst src : Int → CFloat) (n : Nat) : Int → CFloat :=
  fun k => if 0 ≤ k ∧ sizeofFloat * (k.toNat + 1) ≤ n then src k else dst k

/-- Source: `void ofSoundEffectPassthrough::process(...)`:
    `memcpy( output, input, numFrames*numOutChannels*sizeof(float) );`: the two `int`s are
    multiplied as `int`s, the product is converted to `size_t` and multiplied by
    `sizeof(float)`. -/
def ofSoundEffectPassthrough.process (input output : Int → CFloat)
    (numFrames _numInChannels numOutChannels : Nat) : Int → CFloat :=
  Machine.memcpy output input
    (sizeTMul (toSizeT (intMul (numFrames : Int) (numOutChannels : Int))) sizeofFloat)

/-- Inner loop of `ofSoundEffectVolume::process` for frame `i`:
    `for ( int j=0; j<numOutChannels; j++ )
       output[i*numOutChannels+j] = input[i*numInChannels+j] * volume.getDeclickedValue();`
    with `int` index arithmetic and the binary32 product.  The accumulator is the output
    memory and the log of the assignments executed so far, each as
    (index written in `output`, index read in `input`). -/
def ofSoundEffectVolume.processChannels (volume : Machine.ofSoundDeclickedFloat)
    (input : Int → CFloat) (numInChannels numOutChannels i : Nat)
    (acc : (Int → CFloat) × List (Int × Int)) : (Int → CFloat) × List (Int × Int) :=
  (List.range numOutChannels).foldl
    (fun (a : (Int → CFloat) × List (Int × Int)) (j : Nat) =>
      (Function.update a.1 (intAdd (intMul (i : Int) (numOutChannels : Int)) (j : Int))
         (F32.mul (input (intAdd (intMul (i : Int) (numInChannels : Int)) (j : Int)))
            volume.getDeclickedValue),
       a.2 ++ [(intAdd (intMul (i : Int) (numOutChannels : Int)) (j : Int),
                intAdd (intMul (i : Int) (numInChannels : Int)) (j : Int))]))
    acc

/-- Body of the frame loop of `ofSoundEffectVolume::process`: the channel loop, then
    `volume.frameTick();`.  The accumulator is (volume, (output, log)). -/
def ofSoundEffectVolume.processFrame (input : Int → CFloat) (numInChannels numOutChannels : Nat)
    (acc : Machine.ofSoundDeclickedFloat × (Int → CFloat) × List (Int × Int)) (i : Nat) :
    Machine.ofSoundDeclickedFloat × (Int → CFloat) × List (Int × Int) :=
  (acc.1.frameTick,
   Machine.ofSoundEffectVolume.processChannels acc.1 input numInChannels numOutChannels i acc.2)

/-- Source: `void ofSoundEffectVolume::process(...)`: `volume.rebuildRampIfNecessary();` then
    `for ( int i=0; i<numFrames; i++ )` over the frame body.  Returns the member `volume`,
    the output memory and the log of the assignments executed. -/
def ofSoundEffectVolume.process (volume : Machine.ofSoundDeclickedFloat)
    (input output : Int → CFloat) (numFrames numInChannels numOutChannels : Nat) :
    Machine.ofSoundDeclickedFloat × (Int → CFloat) × List (Int × Int) :=
  (List.range numFrames).foldl
    (Machine.ofSoundEffectVolume.processFrame input numInChannels numOutChannels)
    (volume.rebuildRampIfNecessary, output, [])

/-- Source: `void setFrequencyMidiNote( float midiNote )
    { setFrequency(440.0f*powf(2.0f,(midiNote-60.0f)/12.0f)); }`, difference, quotient and
    product rounded to binary32.  `powf` (C library) and `setFrequency` (body outside the
    sources) are parameters. -/
def ofSoundSourceTestTone.setFrequencyMidiNote {σ : Type} (powf : CFloat → CFloat → CFloat)
    (setFrequency : σ → CFloat → σ) (tone : σ) (midiNote : CFloat) : σ :=
  setFrequency tone
    (F32.mul (CFloat.fin 440)
      (powf (CFloat.fin 2) (F32.div (F32.sub midiNote (CFloat.fin 60)) (CFloat.fin 12))))

end Machine

/-! ## Shared lemmas on the ramp -/

theorem setValue_fin (s : ofSoundDeclickedFloat) (x : ℚ) :
    setValue s (CFloat.fin x) = { s with target := x, rampNeedsRebuild := true } := by
  simp [setValue, isnan, finite, CFloat.toRat]

theorem rampIndex_inj (p i j : Nat) (hi : i < 64) (hj : j < 64)
    (h : rampIndex p i = rampIndex p j) : i = j := by
  unfold rampIndex at h
  omega

/-- State of the loop of `rebuildRamp` after `n ≤ 64` iterations. -/
theorem rebuildRamp_loop (p : Nat) (step v : ℚ) (r : Nat → ℚ) (n : Nat) (hn : n ≤ 64) :
    ((List.range n).foldl (rebuildRampBody p step) (r, v)).2 = v + n * step ∧
    (∀ i, i < n →
      ((List.range n).foldl (rebuildRampBody p step) (r, v)).1 (rampIndex p i) = v + i * step) ∧
    (∀ k, (∀ i, i < n → rampIndex p i ≠ k) →
      ((List.range n).foldl (rebuildRampBody p step) (r, v)).1 k = r k) := by
  induction n with
  | zero => simp
  | succ n ih =>
    obtain ⟨h2, h1, h0⟩ := ih (by omega)
    rw [List.range_succ, List.foldl_append]
    simp only [List.foldl_cons, List.foldl_nil, rebuildRampBody]
    refine ⟨?_, ?_, ?_⟩
    · rw [h2]; push_cast; ring
    · intro i hi
      by_cases hin : i = n
      · subst hin
        simp [h2]
      · have hne : rampIndex p i ≠ rampIndex p n := fun h =>
          hin (rampIndex_inj p i n (by omega) (by omega) h)
        rw [Function.update_noteq hne]
        exact h1 i (by omega)
    · intro k hk
      have hne : k ≠ rampIndex p n := fun h => hk n (by omega) h.symm
      rw [Function.update_noteq hne]
      exact h0 k (fun i hi => hk i (by omega))

/-- After `rebuildRamp`, slot `(i+rampPos)%64` holds `current + i*step`. -/
theorem rebuildRamp_slot (s : ofSoundDeclickedFloat) (i : Nat) (hi : i < 64) :
    (rebuildRamp s).ramp (rampIndex s.rampPos i) =
      s.current + i * ((s.target - s.current) / 63) := by
  have h := (rebuildRamp_loop s.rampPos ((s.target - s.current) / 63) s.current s.ramp 64
    (le_refl _)).2.1 i hi
  simpa [rebuildRamp] using h

theorem rebuildRamp_fields (s : ofSoundDeclickedFloat) :
    (rebuildRamp s).current = s.current ∧ (rebuildRamp s).target = s.target ∧
    (rebuildRamp s).rampPos = s.rampPos ∧
    (rebuildRamp s).rampNeedsRebuild = s.rampNeedsRebuild := by
  simp [rebuildRamp]

/-- Effect of `k ≤ 64` consecutive `frameTick` calls from a state with the cursor in range. -/
theorem frameTick_iterate (s : ofSoundDeclickedFloat) (hp : s.rampPos < 64) (k : Nat)
    (hk : k ≤ 64) :
    (frameTick^[k] s).target = s.target ∧
    (frameTick^[k] s).rampNeedsRebuild = s.rampNeedsRebuild ∧
    (frameTick^[k] s).rampPos = (s.rampPos + k) % 64 ∧
    (∀ m, (frameTick^[k] s).ramp m =
      if m < 64 ∧ (m + 64 - s.rampPos) % 64 < k then s.target else s.ramp m) ∧
    (0 < k → (frameTick^[k] s).current = s.ramp ((s.rampPos + (k - 1)) % 64)) := by
  induction k with
  | zero =>
    simp only [Function.iterate_zero, id_eq, Nat.add_zero, Nat.not_lt_zero, and_false,
      if_false, lt_self_iff_false, false_implies, implies_true, and_true, true_and]
    omega
  | succ k ih =>
    obtain ⟨ht, hd, hpos, hr, hc⟩ := ih (by omega)
    rw [Function.iterate_succ_apply']
    refine ⟨?_, ?_, ?_, ?_, ?_⟩
    · simpa [frameTick] using ht
    · simpa [frameTick] using hd
    · simp only [frameTick, hpos]; omega
    · intro m
      simp only [frameTick, hpos, ht, Function.update_apply, hr]
      split_ifs <;> first | rfl | omega
    · intro _
      simp only [frameTick, hpos, hr, Nat.add_sub_cancel]
      have h1 : (s.rampPos + k) % 64 < 64 := Nat.mod_lt _ (by norm_num)
      have h2 : ¬ (((s.rampPos + k) % 64 + 64 - s.rampPos) % 64 < k) := by omega
      simp [h1, h2]

/-- After 64 ticks from a state with the cursor in range every slot of the array holds the
    target. -/
theorem frameTick_iterate_64 (s : ofSoundDeclickedFloat) (hp : s.rampPos < 64) :
    (frameTick^[64] s).target = s.target ∧ (frameTick^[64] s).rampPos < 64 ∧
    (∀ m, m < 64 → (frameTick^[64] s).ramp m = s.target) ∧
    (frameTick^[64] s).current = s.ramp ((s.rampPos + 63) % 64) := by
  obtain ⟨ht, _, hpos, hr, hc⟩ := frameTick_iterate s hp 64 (le_refl _)
  refine ⟨ht, ?_, ?_, ?_⟩
  · rw [hpos]; exact Nat.mod_lt _ (by norm_num)
  · intro m hm
    rw [hr m, if_pos]
    exact ⟨hm, Nat.mod_lt _ (by norm_num)⟩
  · simpa using hc (by norm_num)

/-- Once every slot of the array holds the target, each tick yields the target. -/
theorem frameTick_iterate_settled (s : ofSoundDeclickedFloat) (hp : s.rampPos < 64)
    (hr : ∀ m, m < 64 → s.ramp m = s.target) (k : Nat) :
    (frameTick^[k] s).target = s.target ∧ (frameTick^[k] s).rampPos < 64 ∧
    (∀ m, m < 64 → (frameTick^[k] s).ramp m = s.target) ∧
    (0 < k → (frameTick^[k] s).current = s.target) := by
  induction k with
  | zero => simpa using ⟨hp, hr⟩
  | succ k ih =>
    obtain ⟨ht, hpos, hram, _⟩ := ih
    rw [Function.iterate_succ_apply']
    refine ⟨?_, ?_, ?_, ?_⟩
    · simpa [frameTick] using ht
    · simp only [frameTick]; omega
    · intro m hm
      simp only [frameTick, Function.update_apply, ht]
      split_ifs
      · rfl
      · exact hram m hm
    · intro _
      simp only [frameTick]
      exact hram _ hpos

/-- A pending rebuild: what `rebuildRampIfNecessary` leaves behind. -/
theorem rebuildRampIfNecessary_dirty (s : ofSoundDeclickedFloat)
    (hd : s.rampNeedsRebuild = true) :
    (∀ i, i < 64 → (rebuildRampIfNecessary s).ramp (rampIndex s.rampPos i) =
      s.current + i * ((s.target - s.current) / 63)) ∧
    (rebuildRampIfNecessary s).rampPos = s.rampPos ∧
    (rebuildRampIfNecessary s).current = s.current ∧
    (rebuildRampIfNecessary s).target = s.target ∧
    (rebuildRampIfNecessary s).rampNeedsRebuild = false := by
  have e : rebuildRampIfNecessary s = { rebuildRamp s with rampNeedsRebuild := false } := by
    simp [rebuildRampIfNecessary, hd]
  rw [e]
  obtain ⟨hc, ht, hp, _⟩ := rebuildRamp_fields s
  exact ⟨fun i hi => rebuildRamp_slot s i hi, hp, hc, ht, rfl⟩

theorem rebuildRampIfNecessary_clears (s : ofSoundDeclickedFloat) :
    (rebuildRampIfNecessary s).rampNeedsRebuild = false ∧
    (rebuildRampIfNecessary s).rampPos = s.rampPos := by
  unfold rebuildRampIfNecessary
  by_cases hd : s.rampNeedsRebuild = true
  · simp [hd, rebuildRamp]
  · simp [hd]

/-- Channel loop of the volume effect for frame `i`: the `numOutChannels` positions of the
    frame get input times gain, every position outside the frame is left alone. -/
theorem processChannels_spec (volume : ofSoundDeclickedFloat) (input : Nat → ℚ)
    (nIn nOut i : Nat) (out : Nat → ℚ) :
    (∀ j, j < nOut →
      ofSoundEffectVolume.processChannels volume input nIn nOut i out (i * nOut + j) =
        input (i * nIn + j) * volume.getDeclickedValue) ∧
    (∀ k, k < i * nOut ∨ (i + 1) * nOut ≤ k →
      ofSoundEffectVolume.processChannels volume input nIn nOut i out k = out k) := by
  have key : ∀ m, m ≤ nOut →
      (∀ j, j < m →
        (List.range m).foldl
          (fun o j => Function.update o (i * nOut + j)
            (input (i * nIn + j) * volume.getDeclickedValue)) out (i * nOut + j) =
          input (i * nIn + j) * volume.getDeclickedValue) ∧
      (∀ k, k < i * nOut ∨ i * nOut + m ≤ k →
        (List.range m).foldl
          (fun o j => Function.update o (i * nOut + j)
            (input (i * nIn + j) * volume.getDeclickedValue)) out k = out k) := by
    intro m
    induction m with
    | zero => simp
    | succ m ih =>
      intro hm
      obtain ⟨h1, h0⟩ := ih (by omega)
      rw [List.range_succ, List.foldl_append]
      simp only [List.foldl_cons, List.foldl_nil, Function.update_apply]
      constructor
      · intro j hj
        by_cases hjm : j = m
        · subst hjm
          simp
        · rw [if_neg (by omega)]
          exact h1 j (by omega)
      · intro k hk
        rw [if_neg (by omega)]
        exact h0 k (by omega)
  obtain ⟨h1, h0⟩ := key nOut (le_refl _)
  refine ⟨h1, ?_⟩
  intro k hk
  apply h0 k
  rw [Nat.succ_mul] at hk
  exact hk

/-- Frame loop of the volume effect after `n` frames, from volume state `v0`. -/
theorem processFrame_loop (input : Nat → ℚ) (nIn nOut : Nat) (v0 : ofSoundDeclickedFloat)
    (out : Nat → ℚ) (n : Nat) :
    ((List.range n).foldl (ofSoundEffectVolume.processFrame input nIn nOut) (v0, out)).1 =
      frameTick^[n] v0 ∧
    (∀ i j, i < n → j < nOut →
      ((List.range n).foldl (ofSoundEffectVolume.processFrame input nIn nOut) (v0, out)).2
        (i * nOut + j) = input (i * nIn + j) * getDeclickedValue (frameTick^[i] v0)) ∧
    (∀ k, n * nOut ≤ k →
      ((List.range n).foldl (ofSoundEffectVolume.processFrame input nIn nOut) (v0, out)).2 k
        = out k) := by
  induction n with
  | zero => simp
  | succ n ih =>
    obtain ⟨hv, hw, hk⟩ := ih
    rw [List.range_succ, List.foldl_append]
    simp only [List.foldl_cons, List.foldl_nil, ofSoundEffectVolume.processFrame]
    refine ⟨?_, ?_, ?_⟩
    · rw [hv, Function.iterate_succ_apply']
    · intro i j hi hj
      by_cases hin : i = n
      · subst hin
        rw [(processChannels_spec _ input nIn nOut i _).1 j hj, hv]
      · have hlt : (i + 1) * nOut ≤ n * nOut := Nat.mul_le_mul_right _ (by omega)
        rw [Nat.succ_mul] at hlt
        rw [(processChannels_spec _ input nIn nOut n _).2 (i * nOut + j) (Or.inl (by omega))]
        exact hw i j (by omega) hj
    · intro k hk'
      have hle : n * nOut ≤ (n + 1) * nOut := Nat.mul_le_mul_right _ (by omega)
      rw [(processChannels_spec _ input nIn nOut n _).2 k (Or.inr hk')]
      exact hk k (by omega)

/-- C3: `setValue` with NaN, +Infinity or -Infinity returns the state it was given: raw value,
    declicked value, dirty flag, cursor and ramp are all as before; the setter has no error
    result. -/
theorem C3_setValue_rejects_nonfinite (s : ofSoundDeclickedFloat) :
    setValue s CFloat.nan = s ∧ setValue s CFloat.posInf = s ∧ setValue s CFloat.negInf = s := by
  simp [setValue, isnan, finite]

/-- C4: immediately after `setValue(x)` with `x` finite, `getRawValue()` is `x`, the dirty flag
    is set, and `getDeclickedValue()`, the cursor and every ramp slot are as before. -/
theorem C4_setValue_finite_frame (s : ofSoundDeclickedFloat) (x : ℚ) :
    getRawValue (setValue s (CFloat.fin x)) = x ∧
    (setValue s (CFloat.fin x)).rampNeedsRebuild = true ∧
    getDeclickedValue (setValue s (CFloat.fin x)) = getDeclickedValue s ∧
    (setValue s (CFloat.fin x)).rampPos = s.rampPos ∧
    (∀ k, (setValue s (CFloat.fin x)).ramp k = s.ramp k) := by
  simp [setValue_fin, getRawValue, getDeclickedValue]

/-! ## Claims on the mixer and the effects -/

/-- C5: `setMasterVolume(vol)` stores a finite `vol` as the master volume and changes nothing
    else; with NaN, +Infinity or -Infinity the mixer is returned as it was. -/
theorem C5_setMasterVolume (m : ofSoundMixer) (x : ℚ) :
    (m.setMasterVolume (CFloat.fin x)).masterVolume = x ∧
    m.setMasterVolume (CFloat.fin x) = { m with masterVolume := x } ∧
    m.setMasterVolume CFloat.nan = m ∧ m.setMasterVolume CFloat.posInf = m ∧
    m.setMasterVolume CFloat.negInf = m := by
  simp [ofSoundMixer.setMasterVolume, isnan, isfinite, CFloat.toRat]

/-- C8: `clearInputs()` leaves the effect with no connected input, whether or not one was
    connected, and leaves the input buffer, the sample rate and the active flag unchanged. -/
theorem C8_clearInputs (e : ofSoundEffect) :
    e.clearInputs.input = none ∧ e.clearInputs.inputBuffer = e.inputBuffer ∧
    e.clearInputs.sampleRate = e.sampleRate ∧ e.clearInputs.bIsActive = e.bIsActive := by
  simp [ofSoundEffect.clearInputs, ofSoundSink.lock, ofSoundSink.unlock]

/-! ## Smoothness of protocol traces -/

theorem Smooth_append (prev : ℚ) (l1 l2 : List (ℚ × ℚ)) (h1 : Smooth prev l1)
    (h2 : Smooth (lastVal prev l1) l2) : Smooth prev (l1 ++ l2) := by
  induction l1 generalizing prev with
  | nil => simpa [lastVal] using h2
  | cons o rest ih =>
    simp only [List.cons_append, Smooth] at h1 ⊢
    exact ⟨h1.1, ih o.1 h1.2 (by simpa [lastVal] using h2)⟩

theorem Smooth_index (prev : ℚ) (l : List (ℚ × ℚ)) (h : Smooth prev l) :
    (∀ a, l[0]? = some a → |a.1 - prev| ≤ a.2) ∧
    (∀ i a b, l[i]? = some a → l[i + 1]? = some b → |b.1 - a.1| ≤ b.2) := by
  induction l generalizing prev with
  | nil => simp
  | cons o rest ih =>
    obtain ⟨ho, hrest⟩ := h
    obtain ⟨ih0, ihs⟩ := ih o.1 hrest
    constructor
    · intro a ha
      simp only [List.getElem?_cons_zero, Option.some.injEq] at ha
      subst ha
      exact ho
    · intro i a b ha hb
      cases i with
      | zero =>
        simp only [List.getElem?_cons_zero, Option.some.injEq] at ha
        subst ha
        simp only [zero_add, List.getElem?_cons_succ] at hb
        exact ih0 b hb
      | succ i =>
        simp only [List.getElem?_cons_succ] at ha hb
        exact ihs i a b ha hb

theorem tickObs_lastVal (B : ℚ) (n : Nat) (s : ofSoundDeclickedFloat) :
    lastVal s.current (tickObs B n s) = (frameTick^[n] s).current := by
  induction n generalizing s with
  | zero => rfl
  | succ n ih =>
    simp only [tickObs, lastVal, Function.iterate_succ_apply, getDeclickedValue]
    exact ih (frameTick s)

theorem rampIndex_tick (p j : Nat) : rampIndex ((p + 1) % 64) j = rampIndex p (j + 1) := by
  unfold rampIndex
  omega

/-- Slot `j` past the cursor after a tick: the target for the slot just consumed, the old
    slot `j+1` otherwise. -/
theorem frameTick_ramp_shift (s : ofSoundDeclickedFloat) (hp : s.rampPos < 64) (j : Nat)
    (hj : j < 64) :
    (frameTick s).ramp (rampIndex (frameTick s).rampPos j) =
      if j = 63 then s.target else s.ramp (rampIndex s.rampPos (j + 1)) := by
  simp only [frameTick, rampIndex_tick, Function.update_apply]
  have h : rampIndex s.rampPos (j + 1) = s.rampPos ↔ j = 63 := by
    unfold rampIndex
    omega
  simp only [h]

/-- A tick keeps the ramp invariant and moves the value by at most the bound. -/
theorem frameTick_RampInv (s : ofSoundDeclickedFloat) (B : ℚ) (h : RampInv s B) :
    RampInv (frameTick s) B ∧ |(frameTick s).current - s.current| ≤ B := by
  obtain ⟨hp, h0, hs, hl⟩ := h
  have hB : 0 ≤ B := le_trans (abs_nonneg _) h0
  have hp0 : rampIndex s.rampPos 0 = s.rampPos := by unfold rampIndex; omega
  have hcur : (frameTick s).current = s.ramp (rampIndex s.rampPos 0) := by
    rw [hp0]; rfl
  have htar : (frameTick s).target = s.target := rfl
  refine ⟨⟨?_, ?_, ?_, ?_⟩, ?_⟩
  · simp only [frameTick]; omega
  · rw [frameTick_ramp_shift s hp 0 (by norm_num), if_neg (by norm_num), hcur]
    exact hs 0 (by norm_num)
  · intro j hj
    rw [frameTick_ramp_shift s hp (j + 1) (by omega), frameTick_ramp_shift s hp j (by omega),
      if_neg (show ¬ j = 63 by omega)]
    by_cases h62 : j + 1 = 63
    · rw [if_pos h62, h62]
      exact hl
    · rw [if_neg h62]
      exact hs (j + 1) (by omega)
  · rw [frameTick_ramp_shift s hp 63 (by norm_num), if_pos rfl, htar]
    simpa using hB
  · rw [hcur]
    exact h0

theorem tickObs_Smooth (B : ℚ) (n : Nat) (s : ofSoundDeclickedFloat) (h : RampInv s B) :
    Smooth s.current (tickObs B n s) ∧ RampInv (frameTick^[n] s) B := by
  induction n generalizing s with
  | zero => exact ⟨trivial, h⟩
  | succ n ih =>
    obtain ⟨hinv, hstep⟩ := frameTick_RampInv s B h
    obtain ⟨hsm, hfin⟩ := ih (frameTick s) hinv
    refine ⟨⟨hstep, hsm⟩, ?_⟩
    rw [Function.iterate_succ_apply]
    exact hfin

/-- A freshly rebuilt ramp satisfies the ramp invariant for `|target - current| / 63`. -/
theorem rebuildRamp_RampInv (s : ofSoundDeclickedFloat) (hp : s.rampPos < 64) :
    RampInv (rebuildRamp s) (rampBound s) := by
  obtain ⟨hc, ht, hpos, _⟩ := rebuildRamp_fields s
  have hB : |(s.target - s.current) / 63| = rampBound s := by
    unfold rampBound
    rw [abs_div]
    norm_num
  have hB0 : 0 ≤ rampBound s := by rw [← hB]; exact abs_nonneg _
  refine ⟨by rw [hpos]; exact hp, ?_, ?_, ?_⟩
  · rw [hpos, hc, rebuildRamp_slot s 0 (by norm_num)]
    simpa using hB0
  · intro j hj
    rw [hpos, rebuildRamp_slot s (j + 1) (by omega), rebuildRamp_slot s j (by omega)]
    have e : s.current + ((j + 1 : Nat) : ℚ) * ((s.target - s.current) / 63) -
        (s.current + (j : ℚ) * ((s.target - s.current) / 63)) = (s.target - s.current) / 63 := by
      push_cast; ring
    rw [e, hB]
  · rw [hpos, ht, rebuildRamp_slot s 63 (by norm_num)]
    have e : s.target - (s.current + ((63 : Nat) : ℚ) * ((s.target - s.current) / 63)) = 0 := by
      push_cast; ring
    rw [e]
    simpa using hB0

theorem RampInv_clear_dirty (s : ofSoundDeclickedFloat) (B : ℚ) (h : RampInv s B) :
    RampInv { s with rampNeedsRebuild := false } B := h

theorem setValue_Good (s : ofSoundDeclickedFloat) (B : ℚ) (v : CFloat) (h : Good (s, B)) :
    Good (setValue s v, B) ∧ (setValue s v).current = s.current := by
  cases v with
  | fin x =>
    rw [setValue_fin]
    exact ⟨⟨h.1, Or.inl rfl⟩, rfl⟩
  | nan => exact ⟨h, rfl⟩
  | posInf => exact ⟨h, rfl⟩
  | negInf => exact ⟨h, rfl⟩

theorem applySets_Good (vs : List CFloat) (s : ofSoundDeclickedFloat) (B : ℚ)
    (h : Good (s, B)) :
    Good (applySets s vs, B) ∧ (applySets s vs).current = s.current := by
  induction vs generalizing s with
  | nil => exact ⟨h, rfl⟩
  | cons v vs ih =>
    obtain ⟨hg, hc⟩ := setValue_Good s B v h
    obtain ⟨hg2, hc2⟩ := ih (setValue s v) hg
    exact ⟨hg2, hc2.trans hc⟩

/-- The rebuild at the start of a block establishes the ramp invariant for the block's bound
    and leaves the declicked value alone. -/
theorem block_rebuild_RampInv (st : ofSoundDeclickedFloat × ℚ) (blk : Block) (h : Good st) :
    RampInv (rebuildRampIfNecessary (applySets st.1 blk.sets)) (blockBound st blk) ∧
    (rebuildRampIfNecessary (applySets st.1 blk.sets)).current = st.1.current := by
  obtain ⟨hg, hc⟩ := applySets_Good blk.sets st.1 st.2 h
  obtain ⟨hp, hor⟩ := hg
  simp only [] at hp hor
  unfold blockBound rebuildRampIfNecessary
  by_cases hd : (applySets st.1 blk.sets).rampNeedsRebuild = true
  · simp only [hd, if_true]
    refine ⟨RampInv_clear_dirty _ _ (rebuildRamp_RampInv _ hp), ?_⟩
    simp only [(rebuildRamp_fields _).1, hc]
  · have hinv : RampInv (applySets st.1 blk.sets) st.2 := by
      rcases hor with h1 | h1
      · exact absurd h1 hd
      · exact h1
    simp only [hd, if_false, Bool.false_eq_true]
    exact ⟨RampInv_clear_dirty _ _ hinv, hc⟩

theorem traceObs_Smooth (blocks : List Block) (st : ofSoundDeclickedFloat × ℚ) (h : Good st) :
    Smooth st.1.current (traceObs st blocks) := by
  induction blocks generalizing st with
  | nil => trivial
  | cons blk rest ih =>
    obtain ⟨hinv, hc⟩ := block_rebuild_RampInv st blk h
    obtain ⟨hsm, hfin⟩ := tickObs_Smooth (blockBound st blk) blk.ticks _ hinv
    have hgood : Good (runBlock st blk) := ⟨hfin.1, Or.inr hfin⟩
    simp only [traceObs]
    rw [← hc]
    refine Smooth_append _ _ _ hsm ?_
    rw [tickObs_lastVal]
    exact ih (runBlock st blk) hgood

/-- C2 (amended): in exact arithmetic, in every trace that starts from a value constructed
    with a finite start value and follows the protocol (blocks of one
    `rebuildRampIfNecessary()` and any number of `frameTick()` calls, any `setValue` calls
    only between blocks), the value after a `frameTick()` differs from the value after the
    preceding `frameTick()` (from the start value for the first one) by at most
    `|target - current| / 63` taken at the most recent ramp rebuild. -/
theorem C2_jump_bounded_along_protocol (mem : ofSoundDeclickedFloat) (start b0 : ℚ)
    (blocks : List Block) :
    (∀ a, (traceObs (construct mem start, b0) blocks)[0]? = some a → |a.1 - start| ≤ a.2) ∧
    (∀ i a b, (traceObs (construct mem start, b0) blocks)[i]? = some a →
      (traceObs (construct mem start, b0) blocks)[i + 1]? = some b → |b.1 - a.1| ≤ b.2) := by
  have hgood : Good (construct mem start, b0) := by
    unfold construct
    rw [setValue_fin]
    exact ⟨Nat.zero_lt_succ 63, Or.inl rfl⟩
  have hcur : (construct mem start).current = start := by
    unfold construct
    rw [setValue_fin]
  have h := traceObs_Smooth blocks (construct mem start, b0) hgood
  simp only [hcur] at h
  exact Smooth_index start _ h

/-- Witness for C2 (amended): start at 0, one block of one tick, then `setValue(63)` and a block of two
    ticks: the observations are 0 (bound 0), 0 (bound 1) and 1 (bound 1). -/
theorem C2_jump_bounded_along_protocol_witness :
    (traceObs (construct ⟨0, 0, false, 0, fun _ => 0⟩ 0, 0)
      [⟨[], 1⟩, ⟨[CFloat.fin 63], 2⟩])[1]? = some (0, 1) ∧
    (traceObs (construct ⟨0, 0, false, 0, fun _ => 0⟩ 0, 0)
      [⟨[], 1⟩, ⟨[CFloat.fin 63], 2⟩])[2]? = some (1, 1) ∧
    |(1 : ℚ) - 0| ≤ 1 := by
  have h1 : (traceObs (construct ⟨0, 0, false, 0, fun _ => 0⟩ 0, 0)
      [⟨[], 1⟩, ⟨[CFloat.fin 63], 2⟩])[1]? = some (0, 1) := by
    norm_num [traceObs, tickObs, runBlock, blockBound, applySets, rampBound, construct,
      getDeclickedValue, frameTick, rebuildRampIfNecessary, setValue, isnan, finite,
      CFloat.toRat, rebuildRamp, List.range_succ, rebuildRampBody, rampIndex,
      Function.update_apply]
  have h2 : (traceObs (construct ⟨0, 0, false, 0, fun _ => 0⟩ 0, 0)
      [⟨[], 1⟩, ⟨[CFloat.fin 63], 2⟩])[2]? = some (1, 1) := by
    norm_num [traceObs, tickObs, runBlock, blockBound, applySets, rampBound, construct,
      getDeclickedValue, frameTick, rebuildRampIfNecessary, setValue, isnan, finite,
      CFloat.toRat, rebuildRamp, List.range_succ, rebuildRampBody, rampIndex,
      Function.update_apply]
  exact ⟨h1, h2,
    (C2_jump_bounded_along_protocol ⟨0, 0, false, 0, fun _ => 0⟩ 0 0
      [⟨[], 1⟩, ⟨[CFloat.fin 63], 2⟩]).2 1 (0, 1) (1, 1) h1 h2⟩

/-- Exact arithmetic: for a dirty state with current `c`, target `t` and cursor `p`, the loop
    of the rebuild writes every slot `0..63` in exactly one of its 64 iterations and nothing
    outside the array; afterwards slot `(p+i) mod 64` holds `c + i*(t-c)/63`, cursor, current
    and target are unchanged and the dirty flag is clear; with the cursor in range the `k`-th
    following `frameTick()` (`1 ≤ k ≤ 64`) makes `getDeclickedValue()` equal
    `c + (k-1)*(t-c)/63`, so the first tick leaves the value at `c`. -/
theorem rebuild_linear_ramp_exact (s : ofSoundDeclickedFloat)
    (hd : s.rampNeedsRebuild = true) :
    (∀ k, k < 64 → ∃! i, i < 64 ∧ rampIndex s.rampPos i = k) ∧
    (∀ i, i < 64 → rampIndex s.rampPos i < 64) ∧
    (∀ i, i < 64 → (rebuildRampIfNecessary s).ramp ((s.rampPos + i) % 64) =
      s.current + i * (s.target - s.current) / 63) ∧
    (rebuildRampIfNecessary s).rampPos = s.rampPos ∧
    (rebuildRampIfNecessary s).current = s.current ∧
    (rebuildRampIfNecessary s).target = s.target ∧
    (rebuildRampIfNecessary s).rampNeedsRebuild = false ∧
    (s.rampPos < 64 → ∀ k, 1 ≤ k → k ≤ 64 →
      getDeclickedValue (frameTick^[k] (rebuildRampIfNecessary s)) =
        s.current + ((k : ℚ) - 1) * (s.target - s.current) / 63) ∧
    (s.rampPos < 64 → getDeclickedValue (frameTick (rebuildRampIfNecessary s)) = s.current) := by
  obtain ⟨hslot, hpos, hcur, htar, hclr⟩ := rebuildRampIfNecessary_dirty s hd
  have hticks : s.rampPos < 64 → ∀ k, 1 ≤ k → k ≤ 64 →
      getDeclickedValue (frameTick^[k] (rebuildRampIfNecessary s)) =
        s.current + ((k : ℚ) - 1) * (s.target - s.current) / 63 := by
    intro hp k hk1 hk64
    have h := (frameTick_iterate (rebuildRampIfNecessary s) (by rw [hpos]; exact hp) k
      hk64).2.2.2.2 (by omega)
    have e : ((rebuildRampIfNecessary s).rampPos + (k - 1)) % 64 =
        rampIndex s.rampPos (k - 1) := by
      rw [hpos]; unfold rampIndex; omega
    simp only [getDeclickedValue]
    rw [h, e, hslot (k - 1) (by omega)]
    have hc : ((k - 1 : Nat) : ℚ) = (k : ℚ) - 1 := by
      rw [Nat.cast_sub hk1]; norm_num
    rw [hc]
    ring
  refine ⟨?_, ?_, ?_, hpos, hcur, htar, hclr, hticks, ?_⟩
  · intro k hk
    refine ⟨(k + 64 - s.rampPos % 64) % 64, ⟨Nat.mod_lt _ (by norm_num), ?_⟩, ?_⟩
    · unfold rampIndex; omega
    · rintro i ⟨hi, hik⟩
      unfold rampIndex at hik
      omega
  · intro i _
    exact Nat.mod_lt _ (by norm_num)
  · intro i hi
    have e : (s.rampPos + i) % 64 = rampIndex s.rampPos i := by
      unfold rampIndex; rw [Nat.add_comm]
    rw [e, hslot i hi]
    ring
  · intro hp
    have h := hticks hp 1 (le_refl _) (by norm_num)
    simpa using h

/-- A state whose dirty flag is clear is a fixed point of `rebuildRampIfNecessary`. -/
theorem rebuildRampIfNecessary_clean (s : ofSoundDeclickedFloat)
    (h : s.rampNeedsRebuild = false) : rebuildRampIfNecessary s = s := by
  cases s
  simp only [] at h
  subst h
  simp [rebuildRampIfNecessary]

/-- Ticks of a settled value with the cursor in range keep it settled and in range. -/
theorem Settled_iterate (g : ℚ) (s : ofSoundDeclickedFloat) (hs : Settled g s)
    (hp : s.rampPos < 64) (n : Nat) :
    Settled g (frameTick^[n] s) ∧ (frameTick^[n] s).rampPos < 64 := by
  obtain ⟨hc, ht, hr⟩ := hs
  obtain ⟨h1, h2, h3, h4⟩ := frameTick_iterate_settled s hp (fun m hm => by rw [hr m hm, ht]) n
  refine ⟨⟨?_, by rw [h1, ht], fun m hm => by rw [h3 m hm, ht]⟩, h2⟩
  rcases Nat.eq_zero_or_pos n with h0 | h0
  · subst h0; exact hc
  · rw [h4 h0, ht]

/-- C11: for every state with cursor `p`, `frameTick()` sets `current` to the old `ramp[p]`,
    sets `ramp[p]` to `target`, sets the cursor to `(p+1) mod 64`, and leaves `target`, the
    dirty flag and every other ramp slot unchanged. -/
theorem C11_frameTick_effect (s : ofSoundDeclickedFloat) :
    getDeclickedValue (frameTick s) = s.ramp s.rampPos ∧
    (frameTick s).ramp s.rampPos = s.target ∧
    (frameTick s).rampPos = (s.rampPos + 1) % 64 ∧
    getRawValue (frameTick s) = getRawValue s ∧
    (frameTick s).rampNeedsRebuild = s.rampNeedsRebuild ∧
    (∀ m, m ≠ s.rampPos → (frameTick s).ramp m = s.ramp m) := by
  refine ⟨rfl, ?_, rfl, rfl, rfl, ?_⟩
  · simp [frameTick]
  · intro m hm
    simp [frameTick, Function.update_noteq hm]

/-- Witness for C11: cursor 63, slot 63 holds 5, target 9: the tick yields 5, stores 9 in
    slot 63, wraps the cursor to 0 and leaves slot 7 alone. -/
theorem C11_frameTick_effect_witness :
    getDeclickedValue (frameTick ⟨1, 9, true, 63, fun k => if k = 63 then 5 else 2⟩) = 5 ∧
    (frameTick ⟨1, 9, true, 63, fun k => if k = 63 then 5 else 2⟩).ramp 63 = 9 ∧
    (frameTick ⟨1, 9, true, 63, fun k => if k = 63 then 5 else 2⟩).rampPos = 0 ∧
    (frameTick ⟨1, 9, true, 63, fun k => if k = 63 then 5 else 2⟩).ramp 7 = 2 := by
  have h := C11_frameTick_effect ⟨1, 9, true, 63, fun k => if k = 63 then 5 else 2⟩
  refine ⟨?_, ?_, ?_, ?_⟩
  · rw [h.1]; simp
  · exact h.2.1
  · exact h.2.2.1
  · rw [h.2.2.2.2.2 7 (by decide)]; simp

/-- C12: `rebuildRampIfNecessary()` is the identity on every state whose dirty flag is clear,
    and it is idempotent on every state. -/
theorem C12_rebuildRampIfNecessary_idempotent (s : ofSoundDeclickedFloat) :
    (s.rampNeedsRebuild = false → rebuildRampIfNecessary s = s) ∧
    rebuildRampIfNecessary (rebuildRampIfNecessary s) = rebuildRampIfNecessary s :=
  ⟨rebuildRampIfNecessary_clean s,
   rebuildRampIfNecessary_clean _ (rebuildRampIfNecessary_clears s).1⟩

/-- Witness for C12: a clean state mid-ramp is returned as it is. -/
theorem C12_rebuildRampIfNecessary_idempotent_witness :
    rebuildRampIfNecessary ⟨1, 2, false, 3, fun k => (k : ℚ)⟩ =
      ⟨1, 2, false, 3, fun k => (k : ℚ)⟩ :=
  (C12_rebuildRampIfNecessary_idempotent ⟨1, 2, false, 3, fun k => (k : ℚ)⟩).1 rfl

/-- C17: if `setValue(x)` with `x` finite and `x ≠ a` is called on a value settled at `a`
    (cursor in range) and `rebuildRampIfNecessary()` is never called afterwards, then
    `getDeclickedValue()` is `a` after each of the next 64 `frameTick()` calls and `x` after
    the 65th and every later one: the value changes by the full `x - a ≠ 0` in one frame. -/
theorem C17_no_rebuild_single_jump (s : ofSoundDeclickedFloat) (a x : ℚ)
    (hs : Settled a s) (hp : s.rampPos < 64) (hx : x ≠ a) :
    (∀ k, 1 ≤ k → k ≤ 64 → getDeclickedValue (frameTick^[k] (setValue s (CFloat.fin x))) = a) ∧
    (∀ k, 65 ≤ k → getDeclickedValue (frameTick^[k] (setValue s (CFloat.fin x))) = x) ∧
    getDeclickedValue (frameTick^[65] (setValue s (CFloat.fin x))) -
      getDeclickedValue (frameTick^[64] (setValue s (CFloat.fin x))) = x - a ∧
    x - a ≠ 0 := by
  obtain ⟨_, _, hr⟩ := hs
  rw [setValue_fin]
  set s1 : ofSoundDeclickedFloat := { s with target := x, rampNeedsRebuild := true } with hs1
  have hp1 : s1.rampPos < 64 := hp
  have hr1 : ∀ m, m < 64 → s1.ramp m = a := hr
  have ht1 : s1.target = x := rfl
  have hlow : ∀ k, 1 ≤ k → k ≤ 64 → getDeclickedValue (frameTick^[k] s1) = a := by
    intro k hk1 hk64
    have h := (frameTick_iterate s1 hp1 k hk64).2.2.2.2 (by omega)
    simp only [getDeclickedValue]
    rw [h]
    exact hr1 _ (Nat.mod_lt _ (by norm_num))
  have hhigh : ∀ k, 65 ≤ k → getDeclickedValue (frameTick^[k] s1) = x := by
    intro k hk
    obtain ⟨j, rfl⟩ : ∃ j, k = j + 64 := ⟨k - 64, by omega⟩
    rw [Function.iterate_add_apply]
    obtain ⟨h64t, h64p, h64r, _⟩ := frameTick_iterate_64 s1 hp1
    have h := (frameTick_iterate_settled (frameTick^[64] s1) h64p
      (fun m hm => by rw [h64r m hm, h64t]) j).2.2.2 (by omega)
    simp only [getDeclickedValue]
    rw [h, h64t, ht1]
  refine ⟨hlow, hhigh, ?_, sub_ne_zero.mpr hx⟩
  rw [hhigh 65 (le_refl _), hlow 64 (by norm_num) (le_refl _)]

/-- Witness for C17: a value settled at 0 with cursor 5 is set to 1 and never rebuilt: still 0
    after 64 ticks, 1 after 65. -/
theorem C17_no_rebuild_single_jump_witness :
    getDeclickedValue (frameTick^[64] (setValue ⟨0, 0, false, 5, fun _ => 0⟩ (CFloat.fin 1))) = 0 ∧
    getDeclickedValue (frameTick^[65] (setValue ⟨0, 0, false, 5, fun _ => 0⟩ (CFloat.fin 1))) = 1 :=
  ⟨(C17_no_rebuild_single_jump ⟨0, 0, false, 5, fun _ => 0⟩ 0 1 ⟨rfl, rfl, fun _ _ => rfl⟩
      (by decide) (by norm_num)).1 64 (by decide) (by decide),
   (C17_no_rebuild_single_jump ⟨0, 0, false, 5, fun _ => 0⟩ 0 1 ⟨rfl, rfl, fun _ _ => rfl⟩
      (by decide) (by norm_num)).2.1 65 (by decide)⟩

/-- C18: a value constructed with a finite start value `s` has
    `getDeclickedValue() = getRawValue() = s`, cursor 0 and the dirty flag set, and after one
    `rebuildRampIfNecessary()` followed by any number of `frameTick()` calls
    `getDeclickedValue()` is still `s`. -/
theorem C18_constructed_value_stays (mem : ofSoundDeclickedFloat) (start : ℚ) :
    getDeclickedValue (construct mem start) = start ∧
    getRawValue (construct mem start) = start ∧
    (construct mem start).rampPos = 0 ∧
    (construct mem start).rampNeedsRebuild = true ∧
    (∀ n, getDeclickedValue (frameTick^[n] (rebuildRampIfNecessary (construct mem start)))
      = start) := by
  have hc : construct mem start =
      { mem with rampPos := 0, current := start, target := start, rampNeedsRebuild := true } := by
    unfold construct
    rw [setValue_fin]
  refine ⟨by rw [hc]; rfl, by rw [hc]; rfl, by rw [hc], by rw [hc], ?_⟩
  intro n
  obtain ⟨hslot, hpos, hcur, htar, _⟩ :=
    rebuildRampIfNecessary_dirty (construct mem start) (by rw [hc])
  have hc0 : (construct mem start).current = start := by rw [hc]
  have ht0 : (construct mem start).target = start := by rw [hc]
  have hp0 : (construct mem start).rampPos = 0 := by rw [hc]
  have hsettled : Settled start (rebuildRampIfNecessary (construct mem start)) := by
    refine ⟨by rw [hcur, hc0], by rw [htar, ht0], ?_⟩
    intro m hm
    have h := hslot m hm
    rw [hp0, hc0, ht0] at h
    have e : rampIndex 0 m = m := by unfold rampIndex; omega
    rw [e] at h
    rw [h]
    ring
  exact (Settled_iterate start _ hsettled (by rw [hpos, hp0]; exact Nat.zero_lt_succ 63) n).1.1

/-! ## Further claims on the volume effect -/

/-- The channel loop for frame `i` performs exactly the assignments of `frameAccesses`. -/
theorem processChannels_eq_replay (volume : ofSoundDeclickedFloat) (input : Nat → ℚ)
    (nIn nOut i : Nat) (out : Nat → ℚ) :
    ofSoundEffectVolume.processChannels volume input nIn nOut i out =
      (ofSoundEffectVolume.frameAccesses nIn nOut i).foldl
        (fun o a => Function.update o a.1 (input a.2 * volume.getDeclickedValue)) out := by
  simp only [ofSoundEffectVolume.processChannels, ofSoundEffectVolume.frameAccesses,
    List.foldl_map]

theorem accesses_succ (n nIn nOut : Nat) :
    ofSoundEffectVolume.accesses (n + 1) nIn nOut =
      ofSoundEffectVolume.accesses n nIn nOut ++ ofSoundEffectVolume.frameAccesses nIn nOut n := by
  simp [ofSoundEffectVolume.accesses, List.range_succ, List.flatMap_append]

theorem mem_accesses (numFrames nIn nOut : Nat) (a : Nat × Nat) :
    a ∈ ofSoundEffectVolume.accesses numFrames nIn nOut ↔
      ∃ i j, i < numFrames ∧ j < nOut ∧ a = (i * nOut + j, i * nIn + j) := by
  simp only [ofSoundEffectVolume.accesses, ofSoundEffectVolume.frameAccesses, List.mem_flatMap,
    List.mem_map, List.mem_range]
  constructor
  · rintro ⟨i, hi, j, hj, rfl⟩
    exact ⟨i, j, hi, hj, rfl⟩
  · rintro ⟨i, j, hi, hj, rfl⟩
    exact ⟨i, hi, j, hj, rfl⟩

/-- Frame `i` writes each position of `[i*nOut, i*nOut + nOut)` once and no other. -/
theorem count_frame_writes (nIn nOut i k : Nat) :
    ((ofSoundEffectVolume.frameAccesses nIn nOut i).map Prod.fst).count k =
      if i * nOut ≤ k ∧ k < i * nOut + nOut then 1 else 0 := by
  have hmap : (ofSoundEffectVolume.frameAccesses nIn nOut i).map Prod.fst =
      (List.range nOut).map (fun j => i * nOut + j) := by
    simp [ofSoundEffectVolume.frameAccesses, List.map_map, Function.comp_def]
  rw [hmap]
  by_cases h : i * nOut ≤ k ∧ k < i * nOut + nOut
  · rw [if_pos h]
    apply List.count_eq_one_of_mem
    · exact List.Nodup.map (fun x y hxy => by simpa using hxy) (List.nodup_range nOut)
    · rw [List.mem_map]
      exact ⟨k - i * nOut, List.mem_range.mpr (by omega), by omega⟩
  · rw [if_neg h]
    apply List.count_eq_zero_of_not_mem
    rw [List.mem_map]
    rintro ⟨j, hj, rfl⟩
    rw [List.mem_range] at hj
    exact h ⟨by omega, by omega⟩

/-- The whole call writes each position below `numFrames*nOut` once and no other. -/
theorem count_writes (numFrames nIn nOut k : Nat) :
    ((ofSoundEffectVolume.accesses numFrames nIn nOut).map Prod.fst).count k =
      if k < numFrames * nOut then 1 else 0 := by
  induction numFrames with
  | zero => simp [ofSoundEffectVolume.accesses]
  | succ n ih =>
    rw [accesses_succ, List.map_append, List.count_append, ih, count_frame_writes,
      Nat.succ_mul]
    split_ifs <;> omega

/-- Position `k` below `numFrames*C` is channel `k % C` of frame `k / C`. -/
theorem frame_channel_of_index (numFrames C k : Nat) (hk : k < numFrames * C) :
    k / C < numFrames ∧ k % C < C ∧ k / C * C + k % C = k := by
  have hC : 0 < C := by
    rcases Nat.eq_zero_or_pos C with h0 | h0
    · subst h0; simp at hk
    · exact h0
  exact ⟨(Nat.div_lt_iff_lt_mul hC).mpr hk, Nat.mod_lt _ hC, Nat.div_add_mod' k C⟩

/-- The dropping direction of a channel-count mismatch in `ofSoundEffectVolume::process`:
    when `numOutChannels <= numInChannels`, output channel `j` of frame `i` is the gain of
    frame `i` times input channel `j` of the same frame, the channel the reconciliation
    policy names; the extra input channels are dropped. -/
theorem volume_process_drop_case (volume : ofSoundDeclickedFloat)
    (input output : Nat → ℚ) (numFrames nIn nOut : Nat) (h : nOut ≤ nIn) (i j : Nat)
    (hi : i < numFrames) (hj : j < nOut) :
    (ofSoundEffectVolume.process volume input output numFrames nIn nOut).2 (i * nOut + j) =
      input (i * nIn + j) * getDeclickedValue (frameTick^[i] (rebuildRampIfNecessary volume)) ∧
    reconciledChannel nIn nOut j = j ∧ j < nIn := by
  refine ⟨?_, by simp [reconciledChannel, h], by omega⟩
  unfold ofSoundEffectVolume.process
  exact (processFrame_loop input nIn nOut (rebuildRampIfNecessary volume) output
    numFrames).2.1 i j hi hj

/-- Real arithmetic, `powf` as the real power: `setFrequencyMidiNote(m)` calls `setFrequency`
    with `440 * 2^((m-60)/12)`; note 60 gives exactly 440, and raising the note by 12 doubles
    the requested frequency. -/
theorem midi_note_frequency_real {σ : Type} (setFrequency : σ → ℝ → σ) (tone : σ) (m : ℝ) :
    ofSoundSourceTestTone.setFrequencyMidiNote (fun a b : ℝ => a ^ b) setFrequency tone m =
      setFrequency tone (440 * (2 : ℝ) ^ ((m - 60) / 12)) ∧
    ofSoundSourceTestTone.setFrequencyMidiNote (fun a b : ℝ => a ^ b) setFrequency tone 60 =
      setFrequency tone 440 ∧
    ofSoundSourceTestTone.setFrequencyMidiNote (fun a b : ℝ => a ^ b) setFrequency tone (m + 12) =
      setFrequency tone (2 * (440 * (2 : ℝ) ^ ((m - 60) / 12))) := by
  refine ⟨rfl, ?_, ?_⟩
  · simp [ofSoundSourceTestTone.setFrequencyMidiNote]
  · simp only [ofSoundSourceTestTone.setFrequencyMidiNote]
    have e : (m + 12 - 60) / 12 = (m - 60) / 12 + 1 := by ring
    rw [e, Real.rpow_add (by norm_num : (0 : ℝ) < 2), Real.rpow_one]
    congr 1
    ring

/-! ## Machine arithmetic: shared lemmas -/

theorem wrapInt32_of_range (n : Int) (h0 : 0 ≤ n) (h1 : n < 2147483648) : wrapInt32 n = n := by
  unfold wrapInt32
  omega

theorem wrapInt32_range (n : Int) : -2147483648 ≤ wrapInt32 n ∧ wrapInt32 n < 2147483648 := by
  unfold wrapInt32
  omega

/-- An index `i*c + j` that fits an `int` is computed without wrap. -/
theorem intIndex_eq (i c j : Nat) (h : i * c + j < 2147483648) :
    intAdd (intMul (i : Int) (c : Int)) (j : Int) = ((i * c + j : Nat) : Int) := by
  have h1 : ((i : Int) * (c : Int)) = ((i * c : Nat) : Int) := by push_cast; ring
  have h2 : wrapInt32 ((i * c : Nat) : Int) = ((i * c : Nat) : Int) :=
    wrapInt32_of_range _ (by omega) (by omega)
  have h3 : ((i * c : Nat) : Int) + (j : Int) = ((i * c + j : Nat) : Int) := by push_cast; ring
  unfold intAdd intMul
  rw [h1, h2, h3]
  exact wrapInt32_of_range _ (by omega) (by omega)

/-- A byte count `numFrames*numOutChannels*sizeof(float)` whose `int` product fits an `int`
    is the exact one. -/
theorem byteCount_eq (numFrames nOut : Nat) (h : numFrames * nOut < 2147483648) :
    sizeTMul (toSizeT (intMul (numFrames : Int) (nOut : Int))) sizeofFloat =
      sizeofFloat * (numFrames * nOut) := by
  have h1 : ((numFrames : Int) * (nOut : Int)) = ((numFrames * nOut : Nat) : Int) := by
    push_cast; ring
  unfold sizeTMul toSizeT intMul sizeofFloat
  rw [h1, wrapInt32_of_range _ (by omega) (by omega)]
  omega

/-- Rounding zero, and products with zero. -/
theorem F32_mul_zero_fin (g : ℚ) : F32.mul (CFloat.fin 0) (CFloat.fin g) = CFloat.fin 0 := by
  simp [F32.mul, F32.round]

/-- State of the loop of the binary32 `rebuildRamp` after `n ≤ 64` iterations: slot
    `(i+rampPos)%64` holds the running sum after `i` rounded additions of `step`. -/
theorem Machine_rebuildRamp_loop (p : Nat) (step v : CFloat) (r : Nat → CFloat) (n : Nat)
    (hn : n ≤ 64) :
    ((List.range n).foldl (Machine.ofSoundDeclickedFloat.rebuildRampBody p step) (r, v)).2 =
      (fun x => F32.add x step)^[n] v ∧
    (∀ i, i < n →
      ((List.range n).foldl (Machine.ofSoundDeclickedFloat.rebuildRampBody p step) (r, v)).1
        (rampIndex p i) = (fun x => F32.add x step)^[i] v) ∧
    (∀ k, (∀ i, i < n → rampIndex p i ≠ k) →
      ((List.range n).foldl (Machine.ofSoundDeclickedFloat.rebuildRampBody p step) (r, v)).1 k
        = r k) := by
  induction n with
  | zero => simp
  | succ n ih =>
    obtain ⟨h2, h1, h0⟩ := ih (by omega)
    rw [List.range_succ, List.foldl_append]
    simp only [List.foldl_cons, List.foldl_nil, Machine.ofSoundDeclickedFloat.rebuildRampBody]
    refine ⟨?_, ?_, ?_⟩
    · rw [h2, Function.iterate_succ_apply']
    · intro i hi
      by_cases hin : i = n
      · subst hin
        simp [h2]
      · have hne : rampIndex p i ≠ rampIndex p n := fun h =>
          hin (rampIndex_inj p i n (by omega) (by omega) h)
        rw [Function.update_noteq hne]
        exact h1 i (by omega)
    · intro k hk
      have hne : k ≠ rampIndex p n := fun h => hk n (by omega) h.symm
      rw [Function.update_noteq hne]
      exact h0 k (fun i hi => hk i (by omega))

/-- A pending rebuild in binary32: what `rebuildRampIfNecessary` leaves behind. -/
theorem Machine_rebuildRampIfNecessary_dirty (s : Machine.ofSoundDeclickedFloat)
    (hd : s.rampNeedsRebuild = true) :
    (∀ i, i < 64 → s.rebuildRampIfNecessary.ramp (rampIndex s.rampPos i) =
      (fun x => F32.add x (F32.div (F32.sub s.target s.current) (CFloat.fin 63)))^[i]
        s.current) ∧
    s.rebuildRampIfNecessary.rampPos = s.rampPos ∧
    s.rebuildRampIfNecessary.current = s.current ∧
    s.rebuildRampIfNecessary.target = s.target ∧
    s.rebuildRampIfNecessary.rampNeedsRebuild = false := by
  have h := (Machine_rebuildRamp_loop s.rampPos
    (F32.div (F32.sub s.target s.current) (CFloat.fin 63)) s.current s.ramp 64 (le_refl _)).2.1
  refine ⟨?_, ?_, ?_, ?_, ?_⟩
  · intro i hi
    simpa [Machine.ofSoundDeclickedFloat.rebuildRampIfNecessary, hd,
      Machine.ofSoundDeclickedFloat.rebuildRamp] using h i hi
  all_goals simp [Machine.ofSoundDeclickedFloat.rebuildRampIfNecessary, hd,
      Machine.ofSoundDeclickedFloat.rebuildRamp]

/-- The cursor invariant with machine arithmetic: `setValue`, the rebuild and the three
    operators leave `rampPos` alone, `frameTick` keeps it below 64. -/
theorem Machine_cursor_invariant (s : Machine.ofSoundDeclickedFloat) (v : CFloat) :
    (s.setValue v).rampPos = s.rampPos ∧
    s.rebuildRampIfNecessary.rampPos = s.rampPos ∧
    s.frameTick.rampPos < 64 ∧
    (s.operatorAssign v).rampPos = s.rampPos ∧
    (s.operatorPlusAssign v).rampPos = s.rampPos ∧
    (s.operatorMinusAssign v).rampPos = s.rampPos := by
  have hset : ∀ (t : Machine.ofSoundDeclickedFloat) (w : CFloat),
      (t.setValue w).rampPos = t.rampPos := by
    intro t w
    unfold Machine.ofSoundDeclickedFloat.setValue
    split_ifs <;> rfl
  refine ⟨hset s v, ?_, Nat.mod_lt _ (by norm_num), hset s v, hset s _, hset s _⟩
  unfold Machine.ofSoundDeclickedFloat.rebuildRampIfNecessary
    Machine.ofSoundDeclickedFloat.rebuildRamp
  split_ifs <;> rfl

/-- With machine arithmetic `+=` can overflow: adding the largest binary32 value to a target
    that already holds it gives an infinity, which `setValue` rejects, so the state is
    unchanged. -/
theorem Machine_operatorPlusAssign_overflow :
    F32.add (CFloat.fin ((2 ^ 24 - 1) * pow2 104)) (CFloat.fin ((2 ^ 24 - 1) * pow2 104)) =
      CFloat.posInf ∧
    (Machine.ofSoundDeclickedFloat.operatorPlusAssign
      ⟨CFloat.fin 0, CFloat.fin ((2 ^ 24 - 1) * pow2 104), false, 0, fun _ => CFloat.fin 0⟩
      (CFloat.fin ((2 ^ 24 - 1) * pow2 104))).target = CFloat.fin ((2 ^ 24 - 1) * pow2 104) ∧
    (Machine.ofSoundDeclickedFloat.operatorPlusAssign
      ⟨CFloat.fin 0, CFloat.fin ((2 ^ 24 - 1) * pow2 104), false, 0, fun _ => CFloat.fin 0⟩
      (CFloat.fin ((2 ^ 24 - 1) * pow2 104))).rampNeedsRebuild = false := by
  refine ⟨by decide!, by decide!, by decide!⟩

/-! ## Claims settled against the machine arithmetic -/

/-- C2 (counterexample): in binary32 the protocol trace "construct at 0, rebuild, setValue(1),
    rebuild, tick, tick, ..." has current 0 and target 1 at its most recent rebuild, yet the
    value moves from 8521761/2^28 after the third tick to 6391321/2^27 after the fourth, a
    jump larger than `|1 - 0|/63` and larger than the binary32 quotient 8521761/2^29. -/
theorem C2_jump_bounded_along_protocol_counterexample :
    (Machine.ofSoundDeclickedFloat.setValue
      (Machine.ofSoundDeclickedFloat.rebuildRampIfNecessary
        (Machine.ofSoundDeclickedFloat.construct
          ⟨CFloat.nan, CFloat.nan, false, 7, fun _ => CFloat.nan⟩ (CFloat.fin 0)))
      (CFloat.fin 1)).current = CFloat.fin 0 ∧
    (Machine.ofSoundDeclickedFloat.setValue
      (Machine.ofSoundDeclickedFloat.rebuildRampIfNecessary
        (Machine.ofSoundDeclickedFloat.construct
          ⟨CFloat.nan, CFloat.nan, false, 7, fun _ => CFloat.nan⟩ (CFloat.fin 0)))
      (CFloat.fin 1)).target = CFloat.fin 1 ∧
    Machine.ofSoundDeclickedFloat.getDeclickedValue
      (Machine.ofSoundDeclickedFloat.frameTick^[3]
        (Machine.ofSoundDeclickedFloat.rebuildRampIfNecessary
          (Machine.ofSoundDeclickedFloat.setValue
            (Machine.ofSoundDeclickedFloat.rebuildRampIfNecessary
              (Machine.ofSoundDeclickedFloat.construct
                ⟨CFloat.nan, CFloat.nan, false, 7, fun _ => CFloat.nan⟩ (CFloat.fin 0)))
            (CFloat.fin 1)))) = CFloat.fin (8521761 / 268435456) ∧
    Machine.ofSoundDeclickedFloat.getDeclickedValue
      (Machine.ofSoundDeclickedFloat.frameTick^[4]
        (Machine.ofSoundDeclickedFloat.rebuildRampIfNecessary
          (Machine.ofSoundDeclickedFloat.setValue
            (Machine.ofSoundDeclickedFloat.rebuildRampIfNecessary
              (Machine.ofSoundDeclickedFloat.construct
                ⟨CFloat.nan, CFloat.nan, false, 7, fun _ => CFloat.nan⟩ (CFloat.fin 0)))
            (CFloat.fin 1)))) = CFloat.fin (6391321 / 134217728) ∧
    |(1 : ℚ) - 0| / 63 < |(6391321 / 134217728 : ℚ) - 8521761 / 268435456| ∧
    F32.div (F32.sub (CFloat.fin 1) (CFloat.fin 0)) (CFloat.fin 63) =
      CFloat.fin (8521761 / 536870912) ∧
    (8521761 / 536870912 : ℚ) < |(6391321 / 134217728 : ℚ) - 8521761 / 268435456| := by
  refine ⟨by decide!, by decide!, by decide!, by decide!, ?_, by decide!, ?_⟩
  · norm_num [abs_of_pos]
  · norm_num [abs_of_pos]

/-- C10 (counterexample): in binary32 a dirty state with current 0, target 1 and cursor 0 is
    rebuilt with slot `(0+1) mod 64` holding 8521761/2^29, the rounded quotient, which is not
    `0 + 1*(1-0)/63`. -/
theorem C10_rebuild_writes_linear_ramp_counterexample :
    (Machine.ofSoundDeclickedFloat.rebuildRampIfNecessary
      ⟨CFloat.fin 0, CFloat.fin 1, true, 0, fun _ => CFloat.fin 0⟩).ramp ((0 + 1) % 64) =
      CFloat.fin (8521761 / 536870912) ∧
    CFloat.fin (8521761 / 536870912) ≠ CFloat.fin (0 + (1 : Nat) * (1 - 0) / 63) := by
  refine ⟨by decide!, by decide!⟩

/-- C6 (counterexample): with `numFrames = numOutChannels = 65536` the `int` product wraps
    to 0, so no float is copied: output position 0 keeps its old value 0 although the input
    holds 1 there; with `numFrames = numOutChannels = 46341` the product wraps to a negative
    `int`, the byte count is about 1.8e19, and position 46341*46341, past the claimed range,
    is overwritten. -/
theorem C6_passthrough_copies_counterexample :
    Machine.ofSoundEffectPassthrough.process (fun _ => CFloat.fin 1) (fun _ => CFloat.fin 0)
      65536 65536 65536 0 = CFloat.fin 0 ∧
    (0 : Int) < 65536 * 65536 ∧
    Machine.ofSoundEffectPassthrough.process (fun _ => CFloat.fin 1) (fun _ => CFloat.fin 0)
      46341 46341 46341 (46341 * 46341) = CFloat.fin 1 := by
  refine ⟨by decide!, by decide, by decide!⟩

/-- C6 (amended): when `numFrames*numOutChannels` fits an `int`,
    `ofSoundEffectPassthrough::process` writes `output[k] = input[k]` for every
    `0 <= k < numFrames*numOutChannels` and leaves every other position of the output memory
    as it was (whatever `numInChannels` is). -/
theorem C6_passthrough_copies_within_int_range (input output : Int → CFloat)
    (numFrames numInChannels numOutChannels : Nat)
    (hint : numFrames * numOutChannels < 2147483648) :
    (∀ k : Int, 0 ≤ k → k < ((numFrames * numOutChannels : Nat) : Int) →
      Machine.ofSoundEffectPassthrough.process input output numFrames numInChannels
        numOutChannels k = input k) ∧
    (∀ k : Int, k < 0 ∨ ((numFrames * numOutChannels : Nat) : Int) ≤ k →
      Machine.ofSoundEffectPassthrough.process input output numFrames numInChannels
        numOutChannels k = output k) := by
  constructor
  · intro k h0 hk
    simp only [Machine.ofSoundEffectPassthrough.process, Machine.memcpy,
      byteCount_eq numFrames numOutChannels hint]
    rw [if_pos]
    refine ⟨h0, ?_⟩
    unfold sizeofFloat
    omega
  · intro k hk
    simp only [Machine.ofSoundEffectPassthrough.process, Machine.memcpy,
      byteCount_eq numFrames numOutChannels hint]
    rw [if_neg]
    rintro ⟨h0, h1⟩
    unfold sizeofFloat at h1
    omega

/-- Witness for C6 (amended): two frames of two channels; position 3 is copied, position 4
    and position -1 are kept. -/
theorem C6_passthrough_copies_within_int_range_witness :
    Machine.ofSoundEffectPassthrough.process (fun _ => CFloat.fin 7) (fun _ => CFloat.fin 0)
      2 2 2 3 = CFloat.fin 7 ∧
    Machine.ofSoundEffectPassthrough.process (fun _ => CFloat.fin 7) (fun _ => CFloat.fin 0)
      2 2 2 4 = CFloat.fin 0 ∧
    Machine.ofSoundEffectPassthrough.process (fun _ => CFloat.fin 7) (fun _ => CFloat.fin 0)
      2 2 2 (-1) = CFloat.fin 0 :=
  ⟨(C6_passthrough_copies_within_int_range (fun _ => CFloat.fin 7) (fun _ => CFloat.fin 0)
      2 2 2 (by decide)).1 3 (by decide) (by decide),
   (C6_passthrough_copies_within_int_range (fun _ => CFloat.fin 7) (fun _ => CFloat.fin 0)
      2 2 2 (by decide)).2 4 (Or.inr (by decide)),
   (C6_passthrough_copies_within_int_range (fun _ => CFloat.fin 7) (fun _ => CFloat.fin 0)
      2 2 2 (by decide)).2 (-1) (Or.inl (by decide))⟩

/-! ## The volume effect with machine arithmetic -/

theorem index_lt (i n c j : Nat) (hi : i < n) (hj : j < c) : i * c + j < n * c := by
  have h : (i + 1) * c ≤ n * c := Nat.mul_le_mul_right _ (by omega)
  rw [Nat.succ_mul] at h
  omega

theorem foldl_invariant {α β : Type} (P : α → Prop) (f : α → β → α)
    (h : ∀ a b, P a → P (f a b)) (l : List β) (a : α) (ha : P a) : P (l.foldl f a) := by
  induction l generalizing a with
  | nil => exact ha
  | cons b l ih => exact ih (f a b) (h a b ha)

/-- Channel loop of the machine-level volume effect for frame `i` whose indices fit an
    `int`: the log grows by the assignments of the frame, each logged position gets the
    binary32 product, positions outside the frame are left alone. -/
theorem Machine_processChannels_spec (volume : Machine.ofSoundDeclickedFloat)
    (input : Int → CFloat) (nIn nOut i : Nat) (acc : (Int → CFloat) × List (Int × Int))
    (hW : ∀ j, j < nOut → i * nOut + j < 2147483648)
    (hR : ∀ j, j < nOut → i * nIn + j < 2147483648) :
    (Machine.ofSoundEffectVolume.processChannels volume input nIn nOut i acc).2 =
      acc.2 ++ (ofSoundEffectVolume.frameAccesses nIn nOut i).map
        (fun a => ((a.1 : Int), (a.2 : Int))) ∧
    (∀ j, j < nOut →
      (Machine.ofSoundEffectVolume.processChannels volume input nIn nOut i acc).1
        ((i * nOut + j : Nat) : Int) =
        F32.mul (input ((i * nIn + j : Nat) : Int)) volume.getDeclickedValue) ∧
    (∀ k : Int, k < ((i * nOut : Nat) : Int) ∨ (((i + 1) * nOut : Nat) : Int) ≤ k →
      (Machine.ofSoundEffectVolume.processChannels volume input nIn nOut i acc).1 k
        = acc.1 k) := by
  have hfun : Machine.ofSoundEffectVolume.processChannels volume input nIn nOut i acc =
      (List.range nOut).foldl
        (fun a j =>
          (Function.update a.1 ((i * nOut + j : Nat) : Int)
             (F32.mul (input ((i * nIn + j : Nat) : Int)) volume.getDeclickedValue),
           a.2 ++ [(((i * nOut + j : Nat) : Int), ((i * nIn + j : Nat) : Int))])) acc := by
    unfold Machine.ofSoundEffectVolume.processChannels
    apply List.foldl_ext
    intro a j hj
    rw [List.mem_range] at hj
    rw [intIndex_eq i nOut j (hW j hj), intIndex_eq i nIn j (hR j hj)]
  have key : ∀ m, m ≤ nOut →
      ((List.range m).foldl
        (fun a j =>
          (Function.update a.1 ((i * nOut + j : Nat) : Int)
             (F32.mul (input ((i * nIn + j : Nat) : Int)) volume.getDeclickedValue),
           a.2 ++ [(((i * nOut + j : Nat) : Int), ((i * nIn + j : Nat) : Int))])) acc).2 =
        acc.2 ++ (List.range m).map
          (fun j => (((i * nOut + j : Nat) : Int), ((i * nIn + j : Nat) : Int))) ∧
      (∀ j, j < m →
        ((List.range m).foldl
          (fun a j =>
            (Function.update a.1 ((i * nOut + j : Nat) : Int)
               (F32.mul (input ((i * nIn + j : Nat) : Int)) volume.getDeclickedValue),
             a.2 ++ [(((i * nOut + j : Nat) : Int), ((i * nIn + j : Nat) : Int))])) acc).1
          ((i * nOut + j : Nat) : Int) =
          F32.mul (input ((i * nIn + j : Nat) : Int)) volume.getDeclickedValue) ∧
      (∀ k : Int, k < ((i * nOut : Nat) : Int) ∨ ((i * nOut + m : Nat) : Int) ≤ k →
        ((List.range m).foldl
          (fun a j =>
            (Function.update a.1 ((i * nOut + j : Nat) : Int)
               (F32.mul (input ((i * nIn + j : Nat) : Int)) volume.getDeclickedValue),
             a.2 ++ [(((i * nOut + j : Nat) : Int), ((i * nIn + j : Nat) : Int))])) acc).1 k
          = acc.1 k) := by
    intro m
    induction m with
    | zero => simp
    | succ m ih =>
      intro hm
      obtain ⟨hl, h1, h0⟩ := ih (by omega)
      rw [List.range_succ, List.foldl_append]
      simp only [List.foldl_cons, List.foldl_nil, Function.update_apply]
      refine ⟨?_, ?_, ?_⟩
      · rw [hl, List.map_append, List.append_assoc]
        rfl
      · intro j hj
        by_cases hjm : j = m
        · subst hjm
          simp
        · rw [if_neg (by omega)]
          exact h1 j (by omega)
      · intro k hk
        rw [if_neg (by omega)]
        exact h0 k (by omega)
  obtain ⟨hl, h1, h0⟩ := key nOut (le_refl _)
  rw [hfun]
  refine ⟨?_, h1, ?_⟩
  · rw [hl]
    simp only [ofSoundEffectVolume.frameAccesses, List.map_map, Function.comp_def]
  · intro k hk
    apply h0 k
    rw [Nat.succ_mul] at hk
    exact hk

/-- Frame loop of the machine-level volume effect after `n` frames whose indices fit an
    `int`. -/
theorem Machine_processFrame_loop (input : Int → CFloat) (nIn nOut : Nat)
    (v0 : Machine.ofSoundDeclickedFloat) (out : Int → CFloat) (log0 : List (Int × Int))
    (n : Nat)
    (hW : ∀ i j, i < n → j < nOut → i * nOut + j < 2147483648)
    (hR : ∀ i j, i < n → j < nOut → i * nIn + j < 2147483648) :
    ((List.range n).foldl (Machine.ofSoundEffectVolume.processFrame input nIn nOut)
      (v0, out, log0)).1 = Machine.ofSoundDeclickedFloat.frameTick^[n] v0 ∧
    ((List.range n).foldl (Machine.ofSoundEffectVolume.processFrame input nIn nOut)
      (v0, out, log0)).2.2 =
      log0 ++ (ofSoundEffectVolume.accesses n nIn nOut).map
        (fun a => ((a.1 : Int), (a.2 : Int))) ∧
    (∀ i j, i < n → j < nOut →
      ((List.range n).foldl (Machine.ofSoundEffectVolume.processFrame input nIn nOut)
        (v0, out, log0)).2.1 ((i * nOut + j : Nat) : Int) =
        F32.mul (input ((i * nIn + j : Nat) : Int))
          (Machine.ofSoundDeclickedFloat.frameTick^[i] v0).getDeclickedValue) ∧
    (∀ k : Int, k < 0 ∨ ((n * nOut : Nat) : Int) ≤ k →
      ((List.range n).foldl (Machine.ofSoundEffectVolume.processFrame input nIn nOut)
        (v0, out, log0)).2.1 k = out k) := by
  induction n with
  | zero => simp [ofSoundEffectVolume.accesses]
  | succ n ih =>
    obtain ⟨hv, hl, hw, hk⟩ := ih (fun i j hi hj => hW i j (by omega) hj)
      (fun i j hi hj => hR i j (by omega) hj)
    rw [List.range_succ, List.foldl_append]
    simp only [List.foldl_cons, List.foldl_nil, Machine.ofSoundEffectVolume.processFrame]
    obtain ⟨cl, c1, c0⟩ := Machine_processChannels_spec
      ((List.range n).foldl (Machine.ofSoundEffectVolume.processFrame input nIn nOut)
        (v0, out, log0)).1 input nIn nOut n
      ((List.range n).foldl (Machine.ofSoundEffectVolume.processFrame input nIn nOut)
        (v0, out, log0)).2
      (fun j hj => hW n j (by omega) hj) (fun j hj => hR n j (by omega) hj)
    refine ⟨?_, ?_, ?_, ?_⟩
    · rw [hv, Function.iterate_succ_apply']
    · rw [cl, hl, accesses_succ, List.map_append, List.append_assoc]
    · intro i j hi hj
      by_cases hin : i = n
      · subst hin
        rw [c1 j hj, hv]
      · have hlt := index_lt i n nOut j (by omega) hj
        rw [c0 _ (Or.inl (by omega))]
        exact hw i j (by omega) hj
    · intro k hk'
      have hle : n * nOut ≤ (n + 1) * nOut := Nat.mul_le_mul_right _ (by omega)
      rw [c0 k (by omega)]
      exact hk k (by omega)

/-- Every index the machine-level volume effect logs is the value of an `int` expression. -/
theorem Machine_process_log_range (volume : Machine.ofSoundDeclickedFloat)
    (input output : Int → CFloat) (numFrames nIn nOut : Nat) :
    ∀ a, a ∈ (Machine.ofSoundEffectVolume.process volume input output numFrames nIn nOut).2.2 →
      (-2147483648 ≤ a.1 ∧ a.1 < 2147483648) ∧ (-2147483648 ≤ a.2 ∧ a.2 < 2147483648) := by
  unfold Machine.ofSoundEffectVolume.process
  apply foldl_invariant
    (fun acc : Machine.ofSoundDeclickedFloat × (Int → CFloat) × List (Int × Int) =>
      ∀ a, a ∈ acc.2.2 →
        (-2147483648 ≤ a.1 ∧ a.1 < 2147483648) ∧ (-2147483648 ≤ a.2 ∧ a.2 < 2147483648))
  · intro acc i hacc
    simp only [Machine.ofSoundEffectVolume.processFrame,
      Machine.ofSoundEffectVolume.processChannels]
    apply foldl_invariant
      (fun a : (Int → CFloat) × List (Int × Int) =>
        ∀ x, x ∈ a.2 →
          (-2147483648 ≤ x.1 ∧ x.1 < 2147483648) ∧ (-2147483648 ≤ x.2 ∧ x.2 < 2147483648))
    · intro a j ha x hx
      simp only [List.mem_append, List.mem_singleton] at hx
      rcases hx with hx | hx
      · exact ha x hx
      · subst hx
        exact ⟨wrapInt32_range _, wrapInt32_range _⟩
    · exact hacc
  · intro a ha
    simp at ha

/-- C15 (counterexample): with `numFrames = 65537` and 32768 channels in and out (all valid
    `int`s) the index `i*numOutChannels+j` of iteration `i = 65536`, `j = 0` wraps to
    `-2^31`, and output position `2^31`, which is below `numFrames*numOutChannels`, is
    written by no assignment of the call. -/
theorem C15_volume_access_bounds_counterexample :
    intAdd (intMul 65536 32768) 0 = -2147483648 ∧
    (2147483648 : Int) < 65537 * 32768 ∧
    (((Machine.ofSoundEffectVolume.process
        ⟨CFloat.fin 1, CFloat.fin 1, false, 0, fun _ => CFloat.fin 1⟩
        (fun _ => CFloat.fin 0) (fun _ => CFloat.fin 0) 65537 32768 32768).2.2).map
      Prod.fst).count 2147483648 = 0 := by
  refine ⟨by decide, by decide, ?_⟩
  apply List.count_eq_zero_of_not_mem
  rw [List.mem_map]
  rintro ⟨a, ha, h⟩
  have hr := (Machine_process_log_range _ _ _ _ _ _ a ha).1.2
  omega

/-- C15 (amended): when `numOutChannels <= numInChannels` and `numFrames*numInChannels` fits
    an `int`, every index `ofSoundEffectVolume::process` reads from `input` is in
    `[0, numFrames*numInChannels)`, every index it writes to `output` is in
    `[0, numFrames*numOutChannels)`, each such output position is written exactly once, and
    the value written by iteration `(i, j)` is the product of the sample read and the gain
    of frame `i`; the call with one frame, one input channel and two output channels reads
    `input` at an index `>= numFrames*numInChannels`. -/
theorem C15_volume_access_bounds_within_int_range (volume : Machine.ofSoundDeclickedFloat)
    (input output : Int → CFloat) (numFrames nIn nOut : Nat) (hle : nOut ≤ nIn)
    (hint : numFrames * nIn < 2147483648) :
    (∀ a, a ∈ (Machine.ofSoundEffectVolume.process volume input output numFrames nIn nOut).2.2 →
      0 ≤ a.2 ∧ a.2 < ((numFrames * nIn : Nat) : Int)) ∧
    (∀ a, a ∈ (Machine.ofSoundEffectVolume.process volume input output numFrames nIn nOut).2.2 →
      0 ≤ a.1 ∧ a.1 < ((numFrames * nOut : Nat) : Int)) ∧
    (∀ k : Int, 0 ≤ k → k < ((numFrames * nOut : Nat) : Int) →
      (((Machine.ofSoundEffectVolume.process volume input output numFrames nIn nOut).2.2).map
        Prod.fst).count k = 1) ∧
    (∀ i j, i < numFrames → j < nOut →
      (Machine.ofSoundEffectVolume.process volume input output numFrames nIn nOut).2.1
        ((i * nOut + j : Nat) : Int) =
        F32.mul (input ((i * nIn + j : Nat) : Int))
          (Machine.ofSoundDeclickedFloat.frameTick^[i]
            volume.rebuildRampIfNecessary).getDeclickedValue) ∧
    (∃ a, a ∈ (Machine.ofSoundEffectVolume.process volume input output 1 1 2).2.2 ∧
      (1 : Int) * 1 ≤ a.2) := by
  have hR : ∀ i j, i < numFrames → j < nOut → i * nIn + j < 2147483648 := by
    intro i j hi hj
    have := index_lt i numFrames nIn j hi (by omega)
    omega
  have hN : numFrames * nOut ≤ numFrames * nIn := Nat.mul_le_mul_left _ hle
  have hW : ∀ i j, i < numFrames → j < nOut → i * nOut + j < 2147483648 := by
    intro i j hi hj
    have := index_lt i numFrames nOut j hi hj
    omega
  obtain ⟨_, hl, hw, _⟩ := Machine_processFrame_loop input nIn nOut
    volume.rebuildRampIfNecessary output [] numFrames hW hR
  have hlog : (Machine.ofSoundEffectVolume.process volume input output numFrames nIn nOut).2.2 =
      (ofSoundEffectVolume.accesses numFrames nIn nOut).map
        (fun a => ((a.1 : Int), (a.2 : Int))) := by
    unfold Machine.ofSoundEffectVolume.process
    rw [hl, List.nil_append]
  refine ⟨?_, ?_, ?_, ?_, ?_⟩
  · intro a ha
    rw [hlog, List.mem_map] at ha
    obtain ⟨b, hb, rfl⟩ := ha
    obtain ⟨i, j, hi, hj, rfl⟩ := (mem_accesses numFrames nIn nOut b).mp hb
    have := index_lt i numFrames nIn j hi (by omega)
    simp only []
    omega
  · intro a ha
    rw [hlog, List.mem_map] at ha
    obtain ⟨b, hb, rfl⟩ := ha
    obtain ⟨i, j, hi, hj, rfl⟩ := (mem_accesses numFrames nIn nOut b).mp hb
    have := index_lt i numFrames nOut j hi hj
    simp only []
    omega
  · intro k h0 hk
    have hmap : ((ofSoundEffectVolume.accesses numFrames nIn nOut).map
        (fun a => ((a.1 : Int), (a.2 : Int)))).map Prod.fst =
        ((ofSoundEffectVolume.accesses numFrames nIn nOut).map Prod.fst).map
          (fun n : Nat => (n : Int)) := by
      simp only [List.map_map, Function.comp_def]
    obtain ⟨k', rfl⟩ : ∃ k' : Nat, k = (k' : Int) := ⟨k.toNat, by omega⟩
    rw [hlog, hmap, List.count_map_of_injective _ _ Nat.cast_injective, count_writes,
      if_pos (by omega)]
  · intro i j hi hj
    unfold Machine.ofSoundEffectVolume.process
    exact hw i j hi hj
  · obtain ⟨_, hl1, _, _⟩ := Machine_processFrame_loop input 1 2
      volume.rebuildRampIfNecessary output [] 1
      (fun i j hi hj => by omega) (fun i j hi hj => by omega)
    refine ⟨(1, 1), ?_, by decide⟩
    unfold Machine.ofSoundEffectVolume.process
    rw [hl1]
    decide

/-- Witness for C15 (amended): three frames, two input channels, one output channel: the
    frame-2 assignment (write 2, read 4) is logged, within both bounds, and position 2 is
    written once. -/
theorem C15_volume_access_bounds_within_int_range_witness :
    ((Machine.ofSoundEffectVolume.process
        ⟨CFloat.fin 1, CFloat.fin 1, false, 0, fun _ => CFloat.fin 1⟩
        (fun _ => CFloat.fin 3) (fun _ => CFloat.fin 0) 3 2 1).2.2 = [(0, 0), (1, 2), (2, 4)]) ∧
    ((0 : Int) ≤ 4 ∧ (4 : Int) < ((3 * 2 : Nat) : Int)) ∧
    (((Machine.ofSoundEffectVolume.process
        ⟨CFloat.fin 1, CFloat.fin 1, false, 0, fun _ => CFloat.fin 1⟩
        (fun _ => CFloat.fin 3) (fun _ => CFloat.fin 0) 3 2 1).2.2).map Prod.fst).count 2 = 1 :=
  ⟨by decide!,
   (C15_volume_access_bounds_within_int_range
      ⟨CFloat.fin 1, CFloat.fin 1, false, 0, fun _ => CFloat.fin 1⟩
      (fun _ => CFloat.fin 3) (fun _ => CFloat.fin 0) 3 2 1 (by decide) (by decide)).1 (2, 4)
      (by decide!),
   (C15_volume_access_bounds_within_int_range
      ⟨CFloat.fin 1, CFloat.fin 1, false, 0, fun _ => CFloat.fin 1⟩
      (fun _ => CFloat.fin 3) (fun _ => CFloat.fin 0) 3 2 1 (by decide) (by decide)).2.2.1 2
      (by decide) (by decide)⟩

/-- C9 (counterexample): an effect without input, gain state current `-2^127`, target `2^127`
    (both finite), three mono frames: the rebuilt ramp overflows to infinity and output
    position 2 gets `0*inf`, a NaN; and with `numFrames = numChannels = 65536` the
    Passthrough byte count wraps to 0 and output position 0 keeps its old value 5. -/
theorem C9_no_input_renders_silence_counterexample :
    ((Machine.ofSoundEffect.audioRequested
        (Machine.ofSoundSink.fillInputBufferFromUpstream (fun _ b _ _ => b))
        (Machine.ofSoundEffectVolume.process
          ⟨CFloat.fin (-pow2 127), CFloat.fin (pow2 127), true, 0, fun _ => CFloat.fin 0⟩)
        ⟨⟨false, none, ⟨fun _ => CFloat.fin 9, 0, 0⟩, 44100⟩, true⟩
        (fun _ => CFloat.fin 5) 3 1).2.2.1 2 = CFloat.nan) ∧
    ((Machine.ofSoundEffect.audioRequested
        (Machine.ofSoundSink.fillInputBufferFromUpstream (fun _ b _ _ => b))
        Machine.ofSoundEffectPassthrough.process
        ⟨⟨false, none, ⟨fun _ => CFloat.fin 9, 0, 0⟩, 44100⟩, true⟩
        (fun _ => CFloat.fin 5) 65536 65536).2 0 = CFloat.fin 5) := by
  refine ⟨by decide!, by decide!⟩

/-- The spec-modelled `fillInputBufferFromUpstream` leaves a zero-filled buffer of the
    requested shape when no input is connected. -/
theorem Machine_fillInputBufferFromUpstream_no_input
    (render : Nat → (Int → CFloat) → Nat → Nat → (Int → CFloat)) (s : Machine.ofSoundSink)
    (numFrames numChannels : Nat) (hin : s.input = none) :
    (∀ k : Int, 0 ≤ k → k < ((numFrames * numChannels : Nat) : Int) →
      (s.fillInputBufferFromUpstream render numFrames numChannels).inputBuffer.buffer k
        = CFloat.fin 0) ∧
    (s.fillInputBufferFromUpstream render numFrames numChannels).inputBuffer.numFrames
      = numFrames ∧
    (s.fillInputBufferFromUpstream render numFrames numChannels).inputBuffer.numChannels
      = numChannels := by
  refine ⟨?_, ?_, ?_⟩
  · intro k h0 hk
    simp only [Machine.ofSoundSink.fillInputBufferFromUpstream, hin]
    rw [if_pos ⟨h0, hk⟩]
  · simp [Machine.ofSoundSink.fillInputBufferFromUpstream, hin]
  · simp [Machine.ofSoundSink.fillInputBufferFromUpstream, hin]

/-- C9 (amended): for `numFrames*numChannels` that fits an `int`, an effect with no
    connected input renders silence: whenever `fillInputBufferFromUpstream` leaves, for a
    sink without input, a zero-filled input buffer of shape (numFrames, numChannels),
    `ofSoundEffect::audioRequested` with the Passthrough process, and with the Volume
    process when every gain it applies during the call is finite, writes 0 to every one of
    the `numFrames*numChannels` output positions. -/
theorem C9_no_input_renders_silence_finite_gains
    (fill : Machine.ofSoundSink → Nat → Nat → Machine.ofSoundSink)
    (e : Machine.ofSoundEffect) (volume : Machine.ofSoundDeclickedFloat)
    (buffer : Int → CFloat) (numFrames numChannels : Nat) (hin : e.input = none)
    (hfill : ∀ s : Machine.ofSoundSink, s.input = none →
      (∀ k : Int, 0 ≤ k → k < ((numFrames * numChannels : Nat) : Int) →
        (fill s numFrames numChannels).inputBuffer.buffer k = CFloat.fin 0) ∧
      (fill s numFrames numChannels).inputBuffer.numFrames = numFrames ∧
      (fill s numFrames numChannels).inputBuffer.numChannels = numChannels)
    (hint : numFrames * numChannels < 2147483648)
    (hgain : ∀ i, i < numFrames → ∃ g : ℚ,
      (Machine.ofSoundDeclickedFloat.frameTick^[i]
        volume.rebuildRampIfNecessary).getDeclickedValue = CFloat.fin g) :
    (∀ k : Int, 0 ≤ k → k < ((numFrames * numChannels : Nat) : Int) →
      (e.audioRequested fill Machine.ofSoundEffectPassthrough.process buffer numFrames
        numChannels).2 k = CFloat.fin 0) ∧
    (∀ k : Int, 0 ≤ k → k < ((numFrames * numChannels : Nat) : Int) →
      (e.audioRequested fill (Machine.ofSoundEffectVolume.process volume) buffer numFrames
        numChannels).2.2.1 k = CFloat.fin 0) := by
  obtain ⟨hbuf, _, hch⟩ := hfill e.toofSoundSink hin
  constructor
  · intro k h0 hk
    simp only [Machine.ofSoundEffect.audioRequested, Machine.ofSoundEffectPassthrough.process,
      Machine.memcpy, byteCount_eq numFrames numChannels hint]
    rw [if_pos ⟨h0, by unfold sizeofFloat; omega⟩]
    exact hbuf k h0 hk
  · intro k h0 hk
    simp only [Machine.ofSoundEffect.audioRequested, hch]
    obtain ⟨k', rfl⟩ : ∃ k' : Nat, k = (k' : Int) := ⟨k.toNat, by omega⟩
    have hk' : k' < numFrames * numChannels := by omega
    obtain ⟨hi, hj, hkd⟩ := frame_channel_of_index numFrames numChannels k' hk'
    have hB : ∀ i j, i < numFrames → j < numChannels → i * numChannels + j < 2147483648 := by
      intro i j hi hj
      have := index_lt i numFrames numChannels j hi hj
      omega
    have h := (Machine_processFrame_loop
      (fill e.toofSoundSink numFrames numChannels).inputBuffer.buffer numChannels numChannels
      volume.rebuildRampIfNecessary buffer [] numFrames hB hB).2.2.1
      (k' / numChannels) (k' % numChannels) hi hj
    rw [hkd] at h
    obtain ⟨g, hg⟩ := hgain (k' / numChannels) hi
    unfold Machine.ofSoundEffectVolume.process
    rw [h, hbuf _ h0 hk, hg]
    exact F32_mul_zero_fin g

/-- Witness for C9 (amended): an effect without input renders two stereo frames through the
    spec-modelled `fillInputBufferFromUpstream`; position 3 of the output is 0 for
    Passthrough and for Volume settled at gain 2. -/
theorem C9_no_input_renders_silence_finite_gains_witness :
    ((Machine.ofSoundEffect.audioRequested
        (Machine.ofSoundSink.fillInputBufferFromUpstream (fun _ b _ _ => b))
        Machine.ofSoundEffectPassthrough.process
        ⟨⟨false, none, ⟨fun _ => CFloat.fin 9, 0, 0⟩, 44100⟩, true⟩
        (fun _ => CFloat.fin 5) 2 2).2 3 = CFloat.fin 0) ∧
    ((Machine.ofSoundEffect.audioRequested
        (Machine.ofSoundSink.fillInputBufferFromUpstream (fun _ b _ _ => b))
        (Machine.ofSoundEffectVolume.process
          ⟨CFloat.fin 2, CFloat.fin 2, false, 0, fun _ => CFloat.fin 2⟩)
        ⟨⟨false, none, ⟨fun _ => CFloat.fin 9, 0, 0⟩, 44100⟩, true⟩
        (fun _ => CFloat.fin 5) 2 2).2.2.1 3 = CFloat.fin 0) :=
  ⟨(C9_no_input_renders_silence_finite_gains
      (Machine.ofSoundSink.fillInputBufferFromUpstream (fun _ b _ _ => b))
      ⟨⟨false, none, ⟨fun _ => CFloat.fin 9, 0, 0⟩, 44100⟩, true⟩
      ⟨CFloat.fin 2, CFloat.fin 2, false, 0, fun _ => CFloat.fin 2⟩
      (fun _ => CFloat.fin 5) 2 2 rfl
      (fun s hs => Machine_fillInputBufferFromUpstream_no_input _ s 2 2 hs) (by decide)
      (fun i hi => ⟨2, by interval_cases i <;> decide!⟩)).1 3 (by decide) (by decide),
   (C9_no_input_renders_silence_finite_gains
      (Machine.ofSoundSink.fillInputBufferFromUpstream (fun _ b _ _ => b))
      ⟨⟨false, none, ⟨fun _ => CFloat.fin 9, 0, 0⟩, 44100⟩, true⟩
      ⟨CFloat.fin 2, CFloat.fin 2, false, 0, fun _ => CFloat.fin 2⟩
      (fun _ => CFloat.fin 5) 2 2 rfl
      (fun s hs => Machine_fillInputBufferFromUpstream_no_input _ s 2 2 hs) (by decide)
      (fun i hi => ⟨2, by interval_cases i <;> decide!⟩)).2 3 (by decide) (by decide)⟩

/-- C10 (amended): for a dirty state with current `c`, target `t` and cursor `p`, the loop of
    the rebuild writes every slot `0..63` in exactly one of its 64 iterations and nothing
    outside the array; cursor, current and target are unchanged, the dirty flag is clear and
    the first tick after the rebuild leaves the value at `c`, in exact arithmetic and in
    binary32.  In exact arithmetic slot `(p+i) mod 64` holds `c + i*(t-c)/63` and the `k`-th
    following `frameTick()` (`1 ≤ k ≤ 64`) yields `c + (k-1)*(t-c)/63`; in binary32 the slot
    holds the running sum of `i` rounded additions of the rounded step. -/
theorem C10_rebuild_ramp_exact_and_binary32 (s : ofSoundDeclickedFloat)
    (hd : s.rampNeedsRebuild = true) (m : Machine.ofSoundDeclickedFloat)
    (hm : m.rampNeedsRebuild = true) :
    ((∀ k, k < 64 → ∃! i, i < 64 ∧ rampIndex s.rampPos i = k) ∧
     (∀ i, i < 64 → rampIndex s.rampPos i < 64) ∧
     (∀ i, i < 64 → (rebuildRampIfNecessary s).ramp ((s.rampPos + i) % 64) =
       s.current + i * (s.target - s.current) / 63) ∧
     (rebuildRampIfNecessary s).rampPos = s.rampPos ∧
     (rebuildRampIfNecessary s).current = s.current ∧
     (rebuildRampIfNecessary s).target = s.target ∧
     (rebuildRampIfNecessary s).rampNeedsRebuild = false ∧
     (s.rampPos < 64 → ∀ k, 1 ≤ k → k ≤ 64 →
       getDeclickedValue (frameTick^[k] (rebuildRampIfNecessary s)) =
         s.current + ((k : ℚ) - 1) * (s.target - s.current) / 63) ∧
     (s.rampPos < 64 → getDeclickedValue (frameTick (rebuildRampIfNecessary s)) = s.current)) ∧
    ((∀ k, k < 64 → ∃! i, i < 64 ∧ rampIndex m.rampPos i = k) ∧
     (∀ i, i < 64 → rampIndex m.rampPos i < 64) ∧
     (∀ i, i < 64 → m.rebuildRampIfNecessary.ramp ((m.rampPos + i) % 64) =
       (fun x => F32.add x (F32.div (F32.sub m.target m.current) (CFloat.fin 63)))^[i]
         m.current) ∧
     m.rebuildRampIfNecessary.rampPos = m.rampPos ∧
     m.rebuildRampIfNecessary.current = m.current ∧
     m.rebuildRampIfNecessary.target = m.target ∧
     m.rebuildRampIfNecessary.rampNeedsRebuild = false ∧
     (m.rampPos < 64 →
       m.rebuildRampIfNecessary.frameTick.getDeclickedValue = m.current)) := by
  obtain ⟨hslot, hpos, hcur, htar, hclr⟩ := Machine_rebuildRampIfNecessary_dirty m hm
  have hex := rebuild_linear_ramp_exact s hd
  refine ⟨hex, ?_, ?_, ?_, hpos, hcur, htar, hclr, ?_⟩
  · intro k hk
    refine ⟨(k + 64 - m.rampPos % 64) % 64, ⟨Nat.mod_lt _ (by norm_num), ?_⟩, ?_⟩
    · unfold rampIndex; omega
    · rintro i ⟨hi, hik⟩
      unfold rampIndex at hik
      omega
  · intro i _
    exact Nat.mod_lt _ (by norm_num)
  · intro i hi
    have e : (m.rampPos + i) % 64 = rampIndex m.rampPos i := by
      unfold rampIndex; rw [Nat.add_comm]
    rw [e, hslot i hi]
  · intro hp
    have h0 := hslot 0 (by norm_num)
    have e : rampIndex m.rampPos 0 = m.rampPos := by unfold rampIndex; omega
    rw [e] at h0
    simp only [Machine.ofSoundDeclickedFloat.getDeclickedValue,
      Machine.ofSoundDeclickedFloat.frameTick, hpos, h0, Function.iterate_zero, id_eq]

/-- Witness for C10 (amended): exact state with current 0, target 63, cursor 62: slot 0 holds
    2 and the third tick yields 2; binary32 state with current 0, target 1, cursor 62: the
    first tick yields 0 and slot 63 holds the rounded step. -/
theorem C10_rebuild_ramp_exact_and_binary32_witness :
    (rebuildRampIfNecessary ⟨0, 63, true, 62, fun _ => 7⟩).ramp ((62 + 2) % 64) =
      0 + (2 : Nat) * (63 - 0) / 63 ∧
    getDeclickedValue (frameTick^[3] (rebuildRampIfNecessary ⟨0, 63, true, 62, fun _ => 7⟩)) =
      0 + (((3 : Nat) : ℚ) - 1) * (63 - 0) / 63 ∧
    (Machine.ofSoundDeclickedFloat.frameTick (Machine.ofSoundDeclickedFloat.rebuildRampIfNecessary
      ⟨CFloat.fin 0, CFloat.fin 1, true, 62, fun _ => CFloat.nan⟩)).getDeclickedValue =
      CFloat.fin 0 :=
  ⟨(C10_rebuild_ramp_exact_and_binary32 ⟨0, 63, true, 62, fun _ => 7⟩ rfl
      ⟨CFloat.fin 0, CFloat.fin 1, true, 62, fun _ => CFloat.nan⟩ rfl).1.2.2.1 2 (by decide),
   (C10_rebuild_ramp_exact_and_binary32 ⟨0, 63, true, 62, fun _ => 7⟩ rfl
      ⟨CFloat.fin 0, CFloat.fin 1, true, 62, fun _ => CFloat.nan⟩ rfl).1.2.2.2.2.2.2.2.1
      (by decide) 3 (by decide) (by decide),
   (C10_rebuild_ramp_exact_and_binary32 ⟨0, 63, true, 62, fun _ => 7⟩ rfl
      ⟨CFloat.fin 0, CFloat.fin 1, true, 62, fun _ => CFloat.nan⟩ rfl).2.2.2.2.2.2.2.2
      (by decide)⟩

/-! ## The test tone with machine arithmetic -/

/-- The real number `440 * 2^(1/12)` is irrational. -/
theorem irrational_note_61 : Irrational (440 * (2 : ℝ) ^ (((61 : ℝ) - 60) / 12)) := by
  have hx12 : ((2 : ℝ) ^ (((61 : ℝ) - 60) / 12)) ^ (12 : ℕ) = ((2 : ℤ) : ℝ) := by
    rw [← Real.rpow_natCast, ← Real.rpow_mul (by norm_num)]
    norm_num
  have hnot : ¬ ∃ y : ℤ, (2 : ℝ) ^ (((61 : ℝ) - 60) / 12) = y := by
    rintro ⟨y, hy⟩
    rw [hy] at hx12
    have hy12 : y ^ 12 = 2 := by exact_mod_cast hx12
    have hn : y.natAbs ^ 12 = 2 := by
      have := congrArg Int.natAbs hy12
      rwa [Int.natAbs_pow] at this
    rcases Nat.lt_or_ge y.natAbs 2 with h | h
    · interval_cases y.natAbs <;> simp at hn
    · have := Nat.pow_le_pow_left h 12
      omega
  have hx := irrational_nrt_of_notint_nrt 12 2 hx12 hnot (by norm_num)
  have := hx.nat_mul (m := 440) (by norm_num)
  simpa using this

/-- C19 (counterexample): whatever `powf` is, the value passed to `setFrequency` for note 61
    is a binary32 value, hence not the irrational `440 * 2^((61-60)/12)`; no `powf` that
    returns `2^-149` exactly and rounds `2^-150` to a neighbouring binary32 value makes the
    frequency of note -1728 the double of that of note -1740; and the exponent handed to
    `powf` for note 13 is not the exponent for note 1 plus one. -/
theorem C19_midi_note_frequency_counterexample :
    (¬ ∃ (powf : CFloat → CFloat → CFloat) (q : ℚ),
      Machine.ofSoundSourceTestTone.setFrequencyMidiNote powf (fun (_ : CFloat) f => f)
        (CFloat.fin 0) (CFloat.fin 61) = CFloat.fin q ∧
      (q : ℝ) = 440 * (2 : ℝ) ^ (((61 : ℝ) - 60) / 12)) ∧
    (¬ ∃ powf : CFloat → CFloat → CFloat,
      powf (CFloat.fin 2) (CFloat.fin (-149)) = CFloat.fin (pow2 (-149)) ∧
      (powf (CFloat.fin 2) (CFloat.fin (-150)) = CFloat.fin 0 ∨
        powf (CFloat.fin 2) (CFloat.fin (-150)) = CFloat.fin (pow2 (-149))) ∧
      Machine.ofSoundSourceTestTone.setFrequencyMidiNote powf (fun (_ : CFloat) f => f)
        (CFloat.fin 0) (CFloat.fin (-1728)) =
      F32.mul (CFloat.fin 2)
        (Machine.ofSoundSourceTestTone.setFrequencyMidiNote powf (fun (_ : CFloat) f => f)
          (CFloat.fin 0) (CFloat.fin (-1740)))) ∧
    F32.div (F32.sub (CFloat.fin 13) (CFloat.fin 60)) (CFloat.fin 12) ≠
      F32.add (F32.div (F32.sub (CFloat.fin 1) (CFloat.fin 60)) (CFloat.fin 12))
        (CFloat.fin 1) := by
  refine ⟨?_, ?_, by decide!⟩
  · rintro ⟨powf, q, _, hq⟩
    exact irrational_note_61 ⟨q, hq⟩
  · rintro ⟨powf, h149, h150, hd⟩
    have e1 : F32.div (F32.sub (CFloat.fin (-1728)) (CFloat.fin 60)) (CFloat.fin 12) =
        CFloat.fin (-149) := by decide!
    have e2 : F32.div (F32.sub (CFloat.fin (-1740)) (CFloat.fin 60)) (CFloat.fin 12) =
        CFloat.fin (-150) := by decide!
    simp only [Machine.ofSoundSourceTestTone.setFrequencyMidiNote, e1, e2, h149] at hd
    rcases h150 with h | h
    · rw [h] at hd
      revert hd
      decide!
    · rw [h] at hd
      revert hd
      decide!

/-- C19 (amended): in exact real arithmetic, `powf` the real power, `setFrequencyMidiNote(m)`
    calls `setFrequency` with `440 * 2^((m-60)/12)`, note 60 gives exactly 440 and raising
    the note by 12 doubles the requested frequency; in binary32 note 60 still gives exactly
    440 whenever `powf(2, 0) = 1`. -/
theorem C19_midi_note_frequency_exact_and_binary32 {σ τ : Type} (setFrequency : σ → ℝ → σ)
    (tone : σ) (m : ℝ) (powf : CFloat → CFloat → CFloat) (setFrequency32 : τ → CFloat → τ)
    (tone32 : τ) (hpow : powf (CFloat.fin 2) (CFloat.fin 0) = CFloat.fin 1) :
    (ofSoundSourceTestTone.setFrequencyMidiNote (fun a b : ℝ => a ^ b) setFrequency tone m =
      setFrequency tone (440 * (2 : ℝ) ^ ((m - 60) / 12)) ∧
     ofSoundSourceTestTone.setFrequencyMidiNote (fun a b : ℝ => a ^ b) setFrequency tone 60 =
      setFrequency tone 440 ∧
     ofSoundSourceTestTone.setFrequencyMidiNote (fun a b : ℝ => a ^ b) setFrequency tone
        (m + 12) = setFrequency tone (2 * (440 * (2 : ℝ) ^ ((m - 60) / 12)))) ∧
    Machine.ofSoundSourceTestTone.setFrequencyMidiNote powf setFrequency32 tone32
      (CFloat.fin 60) = setFrequency32 tone32 (CFloat.fin 440) := by
  refine ⟨midi_note_frequency_real setFrequency tone m, ?_⟩
  have e : F32.div (F32.sub (CFloat.fin 60) (CFloat.fin 60)) (CFloat.fin 12) = CFloat.fin 0 := by
    decide!
  have e2 : F32.mul (CFloat.fin 440) (CFloat.fin 1) = CFloat.fin 440 := by decide!
  simp only [Machine.ofSoundSourceTestTone.setFrequencyMidiNote, e, hpow, e2]

/-- Witness for C19 (amended): with a `powf` that returns 1, note 60 in binary32 passes
    exactly 440. -/
theorem C19_midi_note_frequency_exact_and_binary32_witness :
    Machine.ofSoundSourceTestTone.setFrequencyMidiNote (fun _ _ => CFloat.fin 1)
      (fun (_ : CFloat) f => f) (CFloat.fin 0) (CFloat.fin 60) = CFloat.fin 440 :=
  (C19_midi_note_frequency_exact_and_binary32 (fun (_ : ℝ) f => f) 0 69
    (fun _ _ => CFloat.fin 1) (fun (_ : CFloat) f => f) (CFloat.fin 0) rfl).2

end OfxDspChain
